import Mathlib

/-!
Verification of the commit-graph visibility engine
(`enterprise/internal/codeintel/commitgraph/commit_graph.go` and the
persistence adapter `enterprise/internal/codeintel/stores/dbstore/commits.go`).

Go maps are embedded as association lists (`alookup` / `ainsert`); a missing key
yields the zero value, matching Go map reads.  `uint32` flag arithmetic is
embedded on `Nat` with an explicit `% 2 ^ 32`.  The unbounded graph walks of the
Go code (which rely on acyclicity) take an explicit `fuel` argument and return
`Option`; `none` corresponds to divergence of the Go loop on malformed input.
-/

namespace CommitGraph

/-- Upload metadata as in `commitgraph.UploadMeta`: an upload identifier and the
packed flags value (distance in the low bits, marker bits above). -/
structure UploadMeta where
  UploadID : Nat
  Flags : Nat
deriving DecidableEq

/-- Modelled from the spec: `ANCESTOR_VISIBLE` is a single-bit marker held in a
reserved high bit above the distance field (§3); the Go constant's defining file
is not among the sources. -/
def FlagAncestorVisible : Nat := 2 ^ 30

/-- Modelled from the spec: `OVERWRITTEN`, the second single-bit marker (§3). -/
def FlagOverwritten : Nat := 2 ^ 29

/-- Modelled from the spec: `MAX_DISTANCE`, the bit-mask isolating the distance
portion of a packed flags value (§3). -/
def MaxDistance : Nat := 2 ^ 29 - 1

/-- The modulus of Go `uint32` arithmetic. -/
def U32 : Nat := 2 ^ 32

/-- Go's AND-NOT (`x &^ y`) on `uint32` values. -/
def andNot32 (x y : Nat) : Nat := x &&& ((U32 - 1) ^^^ y)

/-- Association-list lookup, embedding the comma-ok form of a Go map read. -/
def alookup {κ α : Type} [DecidableEq κ] : List (κ × α) → κ → Option α
  | [], _ => none
  | (k2, v) :: rest, k => if k2 = k then some v else alookup rest k

/-- Association-list update, embedding Go map assignment `m[k] = v`. -/
def ainsert {κ α : Type} [DecidableEq κ] : List (κ × α) → κ → α → List (κ × α)
  | [], k, v => [(k, v)]
  | (k2, v2) :: rest, k, v =>
    if k2 = k then (k, v) :: rest else (k2, v2) :: ainsert rest k v

/-- A commit graph, commit → parent list (`map[string][]string`). -/
abbrev GraphT : Type := List (String × List String)

/-- A per-token upload map (`map[string]UploadMeta`). -/
abbrev TokenMapT : Type := List (String × UploadMeta)

/-- A seed map, commit → per-token upload map (`map[string]map[string]UploadMeta`). -/
abbrev SeedMapT : Type := List (String × TokenMapT)

/-- Go map read with the zero value `nil` for a missing key. -/
def lookupG (g : GraphT) (c : String) : List String := (alookup g c).getD []

/-- Go map read `uploads[commit]` with the zero value for a missing key. -/
def lookupSeedD (m : SeedMapT) (c : String) : TokenMapT := (alookup m c).getD []

/-- `replaces` from commit_graph.go: upload1 replaces upload2 when it has a
strictly smaller packed distance, ties broken by the smaller upload id. -/
def replaces (upload1 upload2 : UploadMeta) : Bool :=
  let distance1 := upload1.Flags &&& MaxDistance
  let distance2 := upload2.Flags &&& MaxDistance
  decide (distance1 < distance2) ||
    (decide (distance1 = distance2) && decide (upload1.UploadID < upload2.UploadID))

/-- `combineVisibleUploadsForCommit` from commit_graph.go: flatten the
ancestor-visible and descendant-visible upload maps into one list, adding the
respective traversal distances and setting/clearing the marker bits. -/
def combineVisibleUploadsForCommit (ancestorVisibleUploads descendantVisibleUploads : TokenMapT)
    (ancestorDistance descendantDistance : Nat) : List UploadMeta :=
  (ancestorVisibleUploads.flatMap fun p =>
    let ancestorUpload : UploadMeta :=
      ⟨p.2.UploadID, ((p.2.Flags + ancestorDistance) % U32) ||| FlagAncestorVisible⟩
    match alookup descendantVisibleUploads p.1 with
    | some q =>
      let descendantUpload : UploadMeta :=
        ⟨q.UploadID, andNot32 ((q.Flags + descendantDistance) % U32) FlagAncestorVisible⟩
      if replaces descendantUpload ancestorUpload then
        [descendantUpload, ⟨ancestorUpload.UploadID, ancestorUpload.Flags ||| FlagOverwritten⟩]
      else
        [ancestorUpload]
    | none => [ancestorUpload])
  ++ descendantVisibleUploads.flatMap fun p =>
    match alookup ancestorVisibleUploads p.1 with
    | some _ => []
    | none => [⟨p.2.UploadID, andNot32 ((p.2.Flags + descendantDistance) % U32) FlagAncestorVisible⟩]

/-- `reverseGraph` from commit_graph.go: flip every edge of the graph; every key
of the input is seeded with an empty child list first. -/
def reverseGraph (graph : GraphT) : GraphT :=
  let init : GraphT := graph.map fun p => (p.1, [])
  graph.foldl
    (fun reverse p =>
      p.2.foldl (fun reverse parent => ainsert reverse parent (lookupG reverse parent ++ [p.1])) reverse)
    init

/-- Modelled from the spec (§3, §4.1): `CommitGraphView` — the type's defining
file is not among the sources; per the spec it holds `meta : commit →
list<UploadMeta>` and `tokens : upload_id → token`. -/
structure CommitGraphView where
  Meta : List (String × List UploadMeta)
  Tokens : List (Nat × String)
deriving DecidableEq

/-- Modelled from the spec (§4.1): `add(meta, commit, token)` appends `meta` to
`meta[commit]` and sets `tokens[meta.upload_id] = token`. -/
def CommitGraphView.add (v : CommitGraphView) (meta : UploadMeta) (commit token : String) :
    CommitGraphView :=
  { Meta := ainsert v.Meta commit (((alookup v.Meta commit).getD []) ++ [meta])
    Tokens := ainsert v.Tokens meta.UploadID token }

/-- `NewCommitGraphView`: the empty view. -/
def NewCommitGraphView : CommitGraphView := ⟨[], []⟩

/-- Read `commitGraphView.Tokens[id]` (zero value for a missing key). -/
def lookupTokens (v : CommitGraphView) (uploadID : Nat) : String :=
  (alookup v.Tokens uploadID).getD ""

/-- Read `commitGraphView.Meta[commit]` (zero value for a missing key). -/
def lookupMeta (v : CommitGraphView) (commit : String) : List UploadMeta :=
  (alookup v.Meta commit).getD []

/-- The seed test of `populateUploadsByTraversal` (the negation of its skip
condition): the commit has a `Meta` entry, or has more than one child, or more
than one parent, or its first parent has a child count other than one, or its
first child has a parent count other than one. -/
def isSeed (graph reverseGraph : GraphT) (commitGraphView : CommitGraphView) (commit : String) :
    Bool :=
  let parents := lookupG graph commit
  let children := lookupG reverseGraph commit
  (alookup commitGraphView.Meta commit).isSome ||
  decide (1 < children.length) ||
  decide (1 < parents.length) ||
  (decide (0 < parents.length) && !(decide ((lookupG reverseGraph (parents.headD "")).length = 1))) ||
  (decide (0 < children.length) && !(decide ((lookupG graph (children.headD "")).length = 1)))

/-- The inner loop of `populateUploadsByTraversal` locating the nearest populated
ancestors: advance through sole parents, counting distance, until the frontier
is populated or is not a singleton.  `fuel` bounds the walk (the Go loop relies
on the input being acyclic). -/
def findNearestAncestors (graph : GraphT) (uploads : SeedMapT) :
    Nat → List String → Nat → Option (List String × Nat)
  | 0, _, _ => none
  | fuel + 1, ancestors, distance =>
    match ancestors with
    | [a] =>
      if (alookup uploads a).isSome then some ([a], distance)
      else findNearestAncestors graph uploads fuel (lookupG graph a) (distance + 1)
    | _ => some (ancestors, distance)

/-- `populateUploadsForCommit` from commit_graph.go: uploads anchored at the
commit (distance 0) shadow inherited ones; uploads visible from the reached
ancestors are added with the measured distance, keeping per token the entry with
the smaller distance (ties to the smaller upload id). -/
def populateUploadsForCommit (uploads : SeedMapT) (ancestors : List String) (distance : Nat)
    (commitGraphView : CommitGraphView) (commit : String) : TokenMapT :=
  let base : TokenMapT := (lookupMeta commitGraphView commit).foldl
    (fun m upload => ainsert m (lookupTokens commitGraphView upload.UploadID) upload) []
  ancestors.foldl
    (fun m ancestor =>
      (lookupSeedD uploads ancestor).foldl
        (fun m p =>
          let token := lookupTokens commitGraphView p.2.UploadID
          let upload : UploadMeta := ⟨p.2.UploadID, (p.2.Flags + distance) % U32⟩
          match alookup m token with
          | none => ainsert m token upload
          | some currentUpload =>
            if replaces upload currentUpload then ainsert m token upload else m)
        m)
    base

/-- The commit-by-commit loop of `populateUploadsByTraversal`. -/
def populateLoop (graph reverseGraph : GraphT) (commitGraphView : CommitGraphView) (fuel : Nat) :
    List String → SeedMapT → Option SeedMapT
  | [], uploads => some uploads
  | commit :: rest, uploads =>
    if isSeed graph reverseGraph commitGraphView commit then
      match findNearestAncestors graph uploads fuel (lookupG graph commit) 1 with
      | none => none
      | some (ancestors, distance) =>
        populateLoop graph reverseGraph commitGraphView fuel rest
          (ainsert uploads commit
            (populateUploadsForCommit uploads ancestors distance commitGraphView commit))
    else
      populateLoop graph reverseGraph commitGraphView fuel rest uploads

/-- `populateUploadsByTraversal` from commit_graph.go: walk the commits in the
supplied order (reversed for the descendant pass) and populate the seed map. -/
def populateUploadsByTraversal (graph reverseGraph : GraphT) (order : List String)
    (commitGraphView : CommitGraphView) (reverse : Bool) (fuel : Nat) : Option SeedMapT :=
  populateLoop graph reverseGraph commitGraphView fuel
    (if reverse then order.reverse else order) []

/-- The loop body of `traverseForCommit`: follow first parents, counting
distance, until a populated commit is reached; a commit with no parents yields
the not-found sentinel `("", 0, false)`. -/
def traverseForCommitAux (graph : GraphT) (uploads : SeedMapT) :
    Nat → String → Nat → Option (String × Nat × Bool)
  | 0, _, _ => none
  | fuel + 1, commit, distance =>
    if (alookup uploads commit).isSome then some (commit, distance, true)
    else
      match lookupG graph commit with
      | [] => some ("", 0, false)
      | parent :: _ => traverseForCommitAux graph uploads fuel parent (distance + 1)

/-- `traverseForCommit` from commit_graph.go. -/
def traverseForCommit (fuel : Nat) (graph : GraphT) (uploads : SeedMapT) (commit : String) :
    Option (String × Nat × Bool) :=
  traverseForCommitAux graph uploads fuel commit 0

/-- `traverseForUploads` from commit_graph.go: the seed map entry of the first
populated ancestor (the zero value when the walk found none) and its distance. -/
def traverseForUploads (fuel : Nat) (graph : GraphT) (uploads : SeedMapT) (commit : String) :
    Option (TokenMapT × Nat) :=
  (traverseForCommit fuel graph uploads commit).map fun r => (lookupSeedD uploads r.1, r.2.1)

/-- `VisibilityRelationship` from commit_graph.go. -/
structure VisibilityRelationship where
  Commit : String
  Uploads : List UploadMeta
deriving DecidableEq

/-- `LinkRelationship` from commit_graph.go. -/
structure LinkRelationship where
  Commit : String
  Ancestor : Option String
  AncestorDistance : Nat
  Descendant : Option String
  DescendantDistance : Nat
deriving DecidableEq

/-- `Envelope` from commit_graph.go: a tagged union of the two relationship
shapes. -/
inductive Envelope where
  | uploads (v : VisibilityRelationship)
  | links (l : LinkRelationship)
deriving DecidableEq

/-- `strPtrOk` from commit_graph.go. -/
def strPtrOk (value : String) (ok : Bool) : Option String :=
  if ok then some value else none

/-- The commit named by an envelope. -/
def Envelope.commitOf : Envelope → String
  | .uploads v => v.Commit
  | .links l => l.Commit

/-- The `Graph` struct from commit_graph.go (plus the `fuel` bound used by the
embedded graph walks). -/
structure GraphData where
  graph : GraphT
  reverseGraph : GraphT
  commits : List String
  fuel : Nat
  ancestorUploads : SeedMapT
  descendantUploads : SeedMapT

/-- Lexicographic comparison of character lists by code point (the order
`sort.Strings` induces on UTF-8 strings). -/
def charListLe : List Char → List Char → Bool
  | [], _ => true
  | _ :: _, [] => false
  | a :: as, b :: bs =>
    if a.val.toNat < b.val.toNat then true
    else if b.val.toNat < a.val.toNat then false
    else charListLe as bs

/-- Lexicographic string comparison. -/
def strLe (s t : String) : Bool := charListLe s.data t.data

/-- Insertion step of `sortStrings`. -/
def insertSorted (s : String) : List String → List String
  | [] => [s]
  | t :: ts => if strLe s t then s :: t :: ts else t :: insertSorted s ts

/-- `sort.Strings`: sort a list of strings lexicographically. -/
def sortStrings (l : List String) : List String := l.foldr insertSorted []

/-- `NewGraph` from commit_graph.go: build the reverse graph, run the two seed
passes over the supplied topological order, then sort the order in place (the
sorted list is what `Stream` later iterates). -/
def NewGraph (commitGraph : GraphT) (order : List String) (commitGraphView : CommitGraphView) :
    Option GraphData :=
  let graph := commitGraph
  let reverse := reverseGraph graph
  let fuel := order.length + 1
  match populateUploadsByTraversal graph reverse order commitGraphView false fuel,
        populateUploadsByTraversal reverse graph order commitGraphView true fuel with
  | some ancestorUploads, some descendantUploads =>
    some ⟨graph, reverse, sortStrings order, fuel, ancestorUploads, descendantUploads⟩
  | _, _ => none

/-- One iteration of the loop inside `Stream`: `some none` means the commit is
skipped, `some (some e)` means envelope `e` is sent, `none` means the embedded
walk ran out of fuel (the Go loop would diverge). -/
def streamStep (g : GraphData) (commit : String) : Option (Option Envelope) :=
  match traverseForCommit g.fuel g.graph g.ancestorUploads commit,
        traverseForCommit g.fuel g.reverseGraph g.descendantUploads commit with
  | some (ancestorCommit, ancestorDistance, found1),
    some (descendantCommit, descendantDistance, found2) =>
    if !found1 && !found2 then some none
    else
      let ancestorVisibleUploads := lookupSeedD g.ancestorUploads ancestorCommit
      let descendantVisibleUploads := lookupSeedD g.descendantUploads descendantCommit
      if ancestorVisibleUploads.length + descendantVisibleUploads.length = 0 then some none
      else
        let uploads := combineVisibleUploadsForCommit ancestorVisibleUploads
          descendantVisibleUploads ancestorDistance descendantDistance
        let threshold := if found1 && found2 then 2 else 1
        if (found1 && decide (ancestorDistance = 0)) || (found2 && decide (descendantDistance = 0))
            || decide (uploads.length ≤ threshold) then
          some (some (Envelope.uploads ⟨commit, uploads⟩))
        else
          some (some (Envelope.links ⟨commit, strPtrOk ancestorCommit found1, ancestorDistance,
            strPtrOk descendantCommit found2, descendantDistance⟩))
  | _, _ => none

/-- The loop of `Stream` over a list of commits, collecting the sent envelopes
in order. -/
def streamList (g : GraphData) : List String → Option (List Envelope)
  | [] => some []
  | commit :: rest =>
    match streamStep g commit, streamList g rest with
    | some e, some envs =>
      some (match e with
            | some env => env :: envs
            | none => envs)
    | _, _ => none

/-- `Stream` from commit_graph.go, as the ordered list of envelopes sent on the
channel. -/
def stream (g : GraphData) : Option (List Envelope) := streamList g g.commits

/-- `UploadsVisibleAtCommit` from commit_graph.go. -/
def UploadsVisibleAtCommit (g : GraphData) (commit : String) : Option (List UploadMeta) :=
  match traverseForUploads g.fuel g.graph g.ancestorUploads commit,
        traverseForUploads g.fuel g.reverseGraph g.descendantUploads commit with
  | some (ancestorUploads, ancestorDistance), some (descendantUploads, descendantDistance) =>
    some (combineVisibleUploadsForCommit ancestorUploads descendantUploads
      ancestorDistance descendantDistance)
  | _, _ => none

/-- `NewGraph` followed by `Stream`. -/
def streamOfInput (graph : GraphT) (order : List String) (view : CommitGraphView) :
    Option (List Envelope) :=
  (NewGraph graph order view).bind stream

/-- A valid engine input per §6 of the spec: the graph's keys are exactly the
commits of the order, with no duplicates; parent references resolve; the order
is topological (parents strictly before children); the view references known
commits and carries zero initial distances and markers (§3); commit identifiers
are nonempty (they are hexadecimal hashes in practice, and the empty string is
the code's not-found sentinel). -/
structure ValidInput (graph : GraphT) (order : List String) (view : CommitGraphView) : Prop where
  keysNodup : (graph.map Prod.fst).Nodup
  orderNodup : order.Nodup
  keysSubOrder : ∀ c ∈ graph.map Prod.fst, c ∈ order
  orderSubKeys : ∀ c ∈ order, c ∈ graph.map Prod.fst
  parentsClosed : ∀ p ∈ graph, ∀ q ∈ p.2, q ∈ graph.map Prod.fst
  topo : ∀ p ∈ graph, ∀ q ∈ p.2, order.indexOf q < order.indexOf p.1
  metaKeysNodup : (view.Meta.map Prod.fst).Nodup
  metaClosed : ∀ e ∈ view.Meta, e.1 ∈ graph.map Prod.fst
  metaFlagsZero : ∀ e ∈ view.Meta, ∀ u ∈ e.2, u.Flags = 0
  noEmptyName : "" ∉ order

/-- The distance portion of an upload's packed flags (spec §3). -/
def packedDistance (u : UploadMeta) : Nat := u.Flags &&& MaxDistance

/-- Whether the `ANCESTOR_VISIBLE` marker is set in an upload's packed flags. -/
def ancestorVisibleOf (u : UploadMeta) : Bool := decide (u.Flags &&& FlagAncestorVisible ≠ 0)

/-- Whether the `OVERWRITTEN` marker is set in an upload's packed flags. -/
def overwrittenOf (u : UploadMeta) : Bool := decide (u.Flags &&& FlagOverwritten ≠ 0)

/-- §4.5 of the spec restated in its own words, for comparison with
`combineVisibleUploadsForCommit`: for every token of `A` emit the ancestor
upload with `dA` added to its distance and `ANCESTOR_VISIBLE` set; when `D`
shares the token and its upload (with `dD` added, `ANCESTOR_VISIBLE` cleared)
has the smaller distance — ties to the smaller upload id — emit that descendant
upload and mark the ancestor upload `OVERWRITTEN`; tokens only in `D` emit the
descendant upload alone. -/
def combineSpec (A D : TokenMapT) (dA dD : Nat) : List UploadMeta :=
  (A.flatMap fun p =>
    let uA : UploadMeta := ⟨p.2.UploadID, p.2.Flags + dA + FlagAncestorVisible⟩
    match alookup D p.1 with
    | some q =>
      if q.Flags + dD < p.2.Flags + dA ∨
          (q.Flags + dD = p.2.Flags + dA ∧ q.UploadID < p.2.UploadID) then
        [⟨q.UploadID, q.Flags + dD⟩,
         ⟨p.2.UploadID, p.2.Flags + dA + FlagAncestorVisible + FlagOverwritten⟩]
      else [uA]
    | none => [uA])
  ++ D.flatMap fun p =>
    match alookup A p.1 with
    | some _ => []
    | none => [⟨p.2.UploadID, p.2.Flags + dD⟩]

/-- The five seed conditions exactly as the spec states them (§4.3): the commit
anchors at least one upload, or has more than one child, or more than one
parent, or its sole parent has more than one child, or its sole child has more
than one parent. -/
def SeedCondition (graph reverse : GraphT) (view : CommitGraphView) (c : String) : Prop :=
  lookupMeta view c ≠ [] ∨
  1 < (lookupG reverse c).length ∨
  1 < (lookupG graph c).length ∨
  (∃ p, lookupG graph c = [p] ∧ 1 < (lookupG reverse p).length) ∨
  (∃ ch, lookupG reverse c = [ch] ∧ 1 < (lookupG graph ch).length)

/-- The seed conditions with the first one amended to what the code tests: the
commit has an entry in `view.Meta` (possibly an empty one) — for views built
through `add` this coincides with anchoring at least one upload. -/
def SeedConditionPresence (graph reverse : GraphT) (view : CommitGraphView) (c : String) : Prop :=
  (alookup view.Meta c).isSome ∨
  1 < (lookupG reverse c).length ∨
  1 < (lookupG graph c).length ∨
  (∃ p, lookupG graph c = [p] ∧ 1 < (lookupG reverse p).length) ∨
  (∃ ch, lookupG reverse c = [ch] ∧ 1 < (lookupG graph ch).length)

/-- Whether `Stream` sends an envelope for the given commit. -/
def emitsEnvelope (g : GraphData) (c : String) : Bool :=
  match streamStep g c with
  | some (some _) => true
  | _ => false

/-- Insertion step of `sortUploads`. -/
def insertUpload (u : UploadMeta) : List UploadMeta → List UploadMeta
  | [] => [u]
  | v :: vs => if u.UploadID ≤ v.UploadID then u :: v :: vs else v :: insertUpload u vs

/-- Sort an upload list by upload id (the canonicalisation the tests use before
comparing emitted lists, whose order is not significant). -/
def sortUploads (l : List UploadMeta) : List UploadMeta := l.foldr insertUpload []

/-! ### Concrete inputs

`cgC`/`ordC`/`viewC` is Scenario C of the spec — the reference graph of
`TestCalculateVisibleUploads` with its eight uploads; the order is a topological
order of that graph (parents strictly before children). -/

/-- The Scenario C commit graph (child → parents). -/
def cgC : GraphT :=
  [("n", ["l"]), ("m", ["k"]), ("k", ["h"]), ("j", ["b", "h"]), ("h", ["f"]),
   ("l", ["i"]), ("i", ["f"]), ("f", ["e"]), ("g", ["e"]), ("e", ["c"]),
   ("d", ["c"]), ("c", ["a"]), ("b", ["a"]), ("a", [])]

/-- A topological order for Scenario C. -/
def ordC : List String :=
  ["a", "b", "c", "d", "e", "g", "f", "i", "l", "h", "j", "k", "m", "n"]

/-- The Scenario C view: uploads 45@n, 50@a, 51@j, 52@c, 53@f, 54@i, 55@h, 56@m
with their root:indexer tokens, built through `add`. -/
def viewC : CommitGraphView :=
  (((((((NewCommitGraphView.add ⟨45, 0⟩ "n" "sub3/:lsif-go").add
    ⟨50, 0⟩ "a" "sub1/:lsif-go").add
    ⟨51, 0⟩ "j" "sub2/:lsif-go").add
    ⟨52, 0⟩ "c" "sub3/:lsif-go").add
    ⟨53, 0⟩ "f" "sub3/:lsif-go").add
    ⟨54, 0⟩ "i" "sub3/:lsif-go").add
    ⟨55, 0⟩ "h" "sub3/:lsif-go").add
    ⟨56, 0⟩ "m" "sub3/:lsif-go"

/-- A two-commit chain `b → z` whose names sort against the topological order:
`z` is the root, `b` the child. -/
def cgB : GraphT := [("b", ["z"]), ("z", [])]

/-- The (unique) topological order of `cgB`: the parent `z` first. -/
def ordB : List String := ["z", "b"]

/-- A view anchoring upload 50 at the root `z` of `cgB`. -/
def viewB : CommitGraphView := NewCommitGraphView.add ⟨50, 0⟩ "z" "t1"

/-- A single isolated commit. -/
def cgOne : GraphT := [("c", [])]

/-- The order for `cgOne`. -/
def ordOne : List String := ["c"]

/-- A view whose `Meta` has an entry for `c` holding an empty upload list — the
spec's data-model invariants (§3) explicitly allow an empty `meta` list. -/
def viewOneEmpty : CommitGraphView := ⟨[("c", [])], []⟩

/-- The Scenario F forward graph. -/
def scenarioFGraph : GraphT :=
  [("a", ["b", "c"]), ("b", ["d"]), ("c", ["e", "f"]), ("d", []), ("e", ["f"]), ("f", ["g"])]

/-- The reverse graph Scenario F expects. -/
def scenarioFExpected : GraphT :=
  [("a", []), ("b", ["a"]), ("c", ["a"]), ("d", ["b"]), ("e", ["c"]), ("f", ["c", "e"]), ("g", ["f"])]

/-! ### The persistence contract for link rows

`CalculateVisibleUploads` (commits.go, lines 187–195) creates the batch inserter
for `lsif_nearest_uploads_links` with four columns, and `batchInsertLinks`
(lines 272–280) passes four values per row — reading fields `AncestorCommit`
and `Distance` that the `LinkRelationship` of commit_graph.go does not have.
The table itself (migration source, `lsif_nearest_uploads_links`) has six
columns. -/

/-- The columns of the `lsif_nearest_uploads_links` batch inserter as created in
`CalculateVisibleUploads`. -/
def nearestUploadsLinksInserterColumns : List String :=
  ["repository_id", "commit_bytea", "ancestor_commit_bytea", "distance"]

/-- The columns of the `lsif_nearest_uploads_links` table per the migration that
creates it with nullable ancestor/descendant pointers. -/
def lsifNearestUploadsLinksColumns : List String :=
  ["repository_id", "commit_bytea", "ancestor_commit_bytea", "ancestor_distance",
   "descendant_commit_bytea", "descendant_distance"]

/-- A throwaway `GraphData` used only as the default of `Option.getD`. -/
def emptyGraphData : GraphData := ⟨[], [], [], 0, [], []⟩

/-- The decorated graph computed for the `cgB` input. -/
def gB : GraphData := (NewGraph cgB ordB viewB).getD emptyGraphData

/-- The decorated graph computed for the Scenario C input. -/
def gC : GraphData := (NewGraph cgC ordC viewC).getD emptyGraphData


/-! ### Arithmetic toolkit for packed flags -/

theorem lor_two_pow_of_lt {a n : Nat} (h : a < 2 ^ n) : a ||| 2 ^ n = a + 2 ^ n := by
  apply Nat.eq_of_testBit_eq
  intro i
  rw [Nat.testBit_or]
  rcases Nat.lt_trichotomy i n with hi | hi | hi
  · rw [Nat.add_comm, Nat.testBit_two_pow_add_gt hi, Nat.testBit_two_pow_of_ne (by omega)]
    simp
  · subst hi
    rw [Nat.add_comm, Nat.testBit_two_pow_add_eq, Nat.testBit_lt_two_pow h,
      Nat.testBit_two_pow_self]
    simp
  · have hpow : 2 ^ (n + 1) ≤ 2 ^ i := Nat.pow_le_pow_right (by omega) (by omega)
    have hs : 2 ^ (n + 1) = 2 ^ n + 2 ^ n := by rw [Nat.pow_succ]; omega
    have h1 : a + 2 ^ n < 2 ^ i := by omega
    have h2 : a < 2 ^ i := by omega
    rw [Nat.testBit_lt_two_pow h1, Nat.testBit_lt_two_pow h2,
      Nat.testBit_two_pow_of_ne (by omega)]
    simp

theorem and_two_pow_of_testBit_false {x n : Nat} (h : x.testBit n = false) :
    x &&& 2 ^ n = 0 := by
  apply Nat.eq_of_testBit_eq
  intro i
  rw [Nat.testBit_and, Nat.zero_testBit]
  by_cases hi : i = n
  · subst hi; simp [h]
  · rw [Nat.testBit_two_pow_of_ne (by omega)]; simp

theorem and_two_pow_of_testBit_true {x n : Nat} (h : x.testBit n = true) :
    x &&& 2 ^ n = 2 ^ n := by
  apply Nat.eq_of_testBit_eq
  intro i
  rw [Nat.testBit_and]
  by_cases hi : i = n
  · subst hi; simp [h, Nat.testBit_two_pow_self]
  · rw [Nat.testBit_two_pow_of_ne (by omega)]; simp

theorem and_mask_of_lt {x m n : Nat} (h : x < 2 ^ n) :
    x &&& m = x &&& ((2 ^ n - 1) &&& m) := by
  conv_lhs => rw [← Nat.and_pow_two_sub_one_of_lt_two_pow h]
  rw [Nat.and_assoc]

/-- Flags holding a bare distance below `2 ^ 29`: the distance reads back. -/
theorem packedDistance_clean {i g : Nat} (h : g < 2 ^ 29) :
    packedDistance ⟨i, g⟩ = g := by
  unfold packedDistance MaxDistance
  simp only
  rw [Nat.and_pow_two_sub_one_eq_mod]
  omega

theorem packedDistance_av {i g : Nat} (h : g < 2 ^ 29) :
    packedDistance ⟨i, g + FlagAncestorVisible⟩ = g := by
  unfold packedDistance MaxDistance FlagAncestorVisible
  simp only
  rw [Nat.and_pow_two_sub_one_eq_mod]
  omega

theorem packedDistance_av_ov {i g : Nat} (h : g < 2 ^ 29) :
    packedDistance ⟨i, g + FlagAncestorVisible + FlagOverwritten⟩ = g := by
  unfold packedDistance MaxDistance FlagAncestorVisible FlagOverwritten
  simp only
  rw [Nat.and_pow_two_sub_one_eq_mod]
  omega

/-- Clearing `ANCESTOR_VISIBLE` on a value below `2 ^ 29` is the identity. -/
theorem andNot32_av_clean {g : Nat} (h : g < 2 ^ 29) :
    andNot32 g FlagAncestorVisible = g := by
  unfold andNot32 U32 FlagAncestorVisible
  rw [and_mask_of_lt (n := 29) h]
  have hm : ((2 : Nat) ^ 29 - 1) &&& ((2 ^ 32 - 1) ^^^ 2 ^ 30) = 2 ^ 29 - 1 := by decide
  rw [hm, Nat.and_pow_two_sub_one_of_lt_two_pow h]

/-- Setting `ANCESTOR_VISIBLE` on a value below `2 ^ 29` adds the bit. -/
theorem lor_av_clean {g : Nat} (h : g < 2 ^ 29) :
    g ||| FlagAncestorVisible = g + FlagAncestorVisible := by
  unfold FlagAncestorVisible
  exact lor_two_pow_of_lt (by omega)

/-- Setting `OVERWRITTEN` on a clean ancestor-visible value adds the bit. -/
theorem lor_ov_after_av {g : Nat} (h : g < 2 ^ 29) :
    (g + FlagAncestorVisible) ||| FlagOverwritten
      = g + FlagAncestorVisible + FlagOverwritten := by
  unfold FlagAncestorVisible FlagOverwritten
  have h1 : g ||| 2 ^ 29 = g + 2 ^ 29 := lor_two_pow_of_lt h
  have h2 : (g + 2 ^ 29) ||| 2 ^ 30 = g + 2 ^ 29 + 2 ^ 30 := lor_two_pow_of_lt (by omega)
  calc (g + 2 ^ 30) ||| 2 ^ 29
      = (g ||| 2 ^ 30) ||| 2 ^ 29 := by rw [lor_two_pow_of_lt (show g < 2 ^ 30 by omega)]
    _ = (g ||| 2 ^ 29) ||| 2 ^ 30 := by
        rw [Nat.or_assoc, Nat.or_assoc, Nat.or_comm (2 ^ 30) (2 ^ 29)]
    _ = g + 2 ^ 29 + 2 ^ 30 := by rw [h1, h2]
    _ = g + 2 ^ 30 + 2 ^ 29 := by omega

theorem ancestorVisibleOf_av {i g : Nat} (h : g < 2 ^ 29) :
    ancestorVisibleOf ⟨i, g + FlagAncestorVisible⟩ = true := by
  unfold ancestorVisibleOf FlagAncestorVisible
  simp only [decide_eq_true_eq]
  have ht : (g + 2 ^ 30).testBit 30 = true := by
    simp only [Nat.testBit_to_div_mod, decide_eq_true_eq]
    omega
  rw [and_two_pow_of_testBit_true ht]
  norm_num

theorem overwrittenOf_av {i g : Nat} (h : g < 2 ^ 29) :
    overwrittenOf ⟨i, g + FlagAncestorVisible⟩ = false := by
  unfold overwrittenOf FlagAncestorVisible FlagOverwritten
  simp only [decide_eq_false_iff_not, ne_eq, not_not]
  apply and_two_pow_of_testBit_false
  simp only [Nat.testBit_to_div_mod, decide_eq_false_iff_not]
  omega

theorem overwrittenOf_clean {i g : Nat} (h : g < 2 ^ 29) :
    overwrittenOf ⟨i, g⟩ = false := by
  unfold overwrittenOf FlagOverwritten
  simp only [decide_eq_false_iff_not, ne_eq, not_not]
  apply and_two_pow_of_testBit_false
  exact Nat.testBit_lt_two_pow h

theorem ancestorVisibleOf_clean {i g : Nat} (h : g < 2 ^ 29) :
    ancestorVisibleOf ⟨i, g⟩ = false := by
  unfold ancestorVisibleOf FlagAncestorVisible
  simp only [decide_eq_false_iff_not, ne_eq, not_not]
  apply and_two_pow_of_testBit_false
  exact Nat.testBit_lt_two_pow (by omega)

theorem overwrittenOf_av_ov {i g : Nat} (h : g < 2 ^ 29) :
    overwrittenOf ⟨i, g + FlagAncestorVisible + FlagOverwritten⟩ = true := by
  unfold overwrittenOf FlagAncestorVisible FlagOverwritten
  simp only [decide_eq_true_eq]
  have ht : (g + 2 ^ 30 + 2 ^ 29).testBit 29 = true := by
    simp only [Nat.testBit_to_div_mod, decide_eq_true_eq]
    omega
  rw [and_two_pow_of_testBit_true ht]
  norm_num


/-! ### Association-list toolkit -/

theorem alookup_isSome_iff {κ α : Type} [DecidableEq κ] (m : List (κ × α)) (k : κ) :
    (alookup m k).isSome ↔ k ∈ m.map Prod.fst := by
  induction m with
  | nil => simp [alookup]
  | cons hd tl ih =>
    obtain ⟨k2, v⟩ := hd
    by_cases hk : k2 = k
    · subst hk; simp [alookup]
    · simp [alookup, hk, ih, Ne.symm hk]

theorem mem_of_alookup_eq_some {κ α : Type} [DecidableEq κ] {m : List (κ × α)} {k : κ} {v : α}
    (h : alookup m k = some v) : (k, v) ∈ m := by
  induction m with
  | nil => simp [alookup] at h
  | cons hd tl ih =>
    obtain ⟨k2, v2⟩ := hd
    by_cases hk : k2 = k
    · subst hk
      simp [alookup] at h
      subst h
      exact List.mem_cons_self _ _
    · simp [alookup, hk] at h
      exact List.mem_cons_of_mem _ (ih h)

theorem alookup_eq_some_of_mem {κ α : Type} [DecidableEq κ] {m : List (κ × α)} {k : κ} {v : α}
    (hnd : (m.map Prod.fst).Nodup) (h : (k, v) ∈ m) : alookup m k = some v := by
  induction m with
  | nil => simp at h
  | cons hd tl ih =>
    obtain ⟨k2, v2⟩ := hd
    simp only [List.map_cons, List.nodup_cons] at hnd
    rcases List.mem_cons.mp h with he | hm
    · rw [Prod.mk.injEq] at he
      obtain ⟨he1, he2⟩ := he
      subst he1; subst he2
      simp [alookup]
    · have hk : k2 ≠ k := by
        intro hkk
        subst hkk
        exact hnd.1 (List.mem_map.mpr ⟨(k2, v), hm, rfl⟩)
      simp [alookup, hk]
      exact ih hnd.2 hm

theorem alookup_ainsert_self {κ α : Type} [DecidableEq κ] (m : List (κ × α)) (k : κ) (v : α) :
    alookup (ainsert m k v) k = some v := by
  induction m with
  | nil => simp [ainsert, alookup]
  | cons hd tl ih =>
    obtain ⟨k2, v2⟩ := hd
    by_cases hk : k2 = k
    · subst hk; simp [ainsert, alookup]
    · simp [ainsert, alookup, hk, ih]

theorem alookup_ainsert_ne {κ α : Type} [DecidableEq κ] (m : List (κ × α)) {k j : κ} (v : α)
    (h : j ≠ k) : alookup (ainsert m k v) j = alookup m j := by
  induction m with
  | nil => simp [ainsert, alookup, Ne.symm h]
  | cons hd tl ih =>
    obtain ⟨k2, v2⟩ := hd
    by_cases hk : k2 = k
    · subst hk
      simp [ainsert, alookup, Ne.symm h]
    · by_cases hj : k2 = j
      · subst hj; simp [ainsert, alookup, hk]
      · simp [ainsert, alookup, hk, hj, ih]

theorem mem_ainsert {κ α : Type} [DecidableEq κ] {m : List (κ × α)} {k : κ} {v : α} {e : κ × α}
    (h : e ∈ ainsert m k v) : e = (k, v) ∨ e ∈ m := by
  induction m with
  | nil => simp [ainsert] at h; simp [h]
  | cons hd tl ih =>
    obtain ⟨k2, v2⟩ := hd
    by_cases hk : k2 = k
    · subst hk
      simp only [ainsert, if_pos rfl] at h
      rcases List.mem_cons.mp h with he | hm
      · exact Or.inl he
      · exact Or.inr (List.mem_cons_of_mem _ hm)
    · simp only [ainsert, if_neg hk] at h
      rcases List.mem_cons.mp h with he | hm
      · exact Or.inr (he ▸ List.mem_cons_self _ _)
      · rcases ih hm with h1 | h2
        · exact Or.inl h1
        · exact Or.inr (List.mem_cons_of_mem _ h2)

theorem map_fst_ainsert {κ α : Type} [DecidableEq κ] (m : List (κ × α)) (k : κ) (v : α) :
    (ainsert m k v).map Prod.fst
      = if k ∈ m.map Prod.fst then m.map Prod.fst else m.map Prod.fst ++ [k] := by
  induction m with
  | nil => simp [ainsert]
  | cons hd tl ih =>
    obtain ⟨k2, v2⟩ := hd
    by_cases hk : k2 = k
    · subst hk; simp [ainsert]
    · simp only [ainsert, if_neg hk, List.map_cons, ih]
      by_cases hmem : k ∈ tl.map Prod.fst
      · simp [hmem, Ne.symm hk]
      · simp [hmem, Ne.symm hk]

theorem nodup_keys_ainsert {κ α : Type} [DecidableEq κ] {m : List (κ × α)} (k : κ) (v : α)
    (hnd : (m.map Prod.fst).Nodup) : ((ainsert m k v).map Prod.fst).Nodup := by
  rw [map_fst_ainsert]
  by_cases hmem : k ∈ m.map Prod.fst
  · simpa [hmem]
  · simp only [hmem, if_false]
    rw [List.nodup_append]
    refine ⟨hnd, List.nodup_singleton k, fun a ha hb => ?_⟩
    rw [List.mem_singleton] at hb
    subst hb
    exact hmem ha

theorem alookup_ainsert_isSome {κ α : Type} [DecidableEq κ] (m : List (κ × α)) (k j : κ) (v : α) :
    (alookup (ainsert m k v) j).isSome = ((alookup m j).isSome || decide (j = k)) := by
  by_cases hj : j = k
  · subst hj; simp [alookup_ainsert_self]
  · simp [alookup_ainsert_ne m v hj, hj]

theorem countP_flatMap {α β : Type} (l : List α) (f : α → List β) (p : β → Bool) :
    (l.flatMap f).countP p = (l.map fun a => (f a).countP p).sum := by
  induction l with
  | nil => simp
  | cons hd tl ih => simp [List.flatMap_cons, List.countP_append, ih]

/-! ### Reverse graph -/

theorem lookupG_init (g : GraphT) (c : String) :
    lookupG (g.map fun p => (p.1, [])) c = [] := by
  induction g with
  | nil => simp [lookupG, alookup]
  | cons hd tl ih =>
    by_cases hk : hd.1 = c
    · simp [lookupG, alookup, hk]
    · simpa [lookupG, alookup, hk] using ih

theorem lookupG_append_child (acc : GraphT) (p c x : String) :
    lookupG (ainsert acc p (lookupG acc p ++ [c])) x
      = if x = p then lookupG acc p ++ [c] else lookupG acc x := by
  by_cases hx : x = p
  · subst hx
    simp [lookupG, alookup_ainsert_self]
  · simp [lookupG, alookup_ainsert_ne _ _ hx, hx]

theorem mem_lookupG_revRow (ps : List String) (c : String) (acc : GraphT) (x t : String) :
    (x ∈ lookupG (ps.foldl (fun acc parent =>
        ainsert acc parent (lookupG acc parent ++ [c])) acc) t)
      ↔ (x ∈ lookupG acc t ∨ (x = c ∧ t ∈ ps)) := by
  induction ps generalizing acc with
  | nil => simp
  | cons hd tl ih =>
    simp only [List.foldl_cons, ih, lookupG_append_child, List.mem_cons]
    by_cases ht : t = hd
    · subst ht
      simp only [eq_self_iff_true, if_true, List.mem_append, List.mem_singleton]
      tauto
    · simp only [if_neg ht]
      tauto

theorem mem_lookupG_revFold (rows : List (String × List String)) (acc : GraphT) (x t : String) :
    (x ∈ lookupG (rows.foldl (fun acc p =>
        p.2.foldl (fun acc parent => ainsert acc parent (lookupG acc parent ++ [p.1])) acc) acc) t)
      ↔ (x ∈ lookupG acc t ∨ ∃ r ∈ rows, x = r.1 ∧ t ∈ r.2) := by
  induction rows generalizing acc with
  | nil => simp
  | cons hd tl ih =>
    simp only [List.foldl_cons, ih, mem_lookupG_revRow, List.mem_cons]
    constructor
    · rintro ((h | h) | ⟨r, hr, h⟩)
      · exact Or.inl h
      · exact Or.inr ⟨hd, Or.inl rfl, h⟩
      · exact Or.inr ⟨r, Or.inr hr, h⟩
    · rintro (h | ⟨r, hr | hr, h⟩)
      · exact Or.inl (Or.inl h)
      · subst hr
        exact Or.inl (Or.inr h)
      · exact Or.inr ⟨r, hr, h⟩

/-- Membership in the reverse graph: `x` is recorded as a child of `t` exactly
when some row `(x, ps)` of the forward graph lists `t` among the parents. -/
theorem mem_lookupG_reverseGraph (g : GraphT) (x t : String) :
    x ∈ lookupG (reverseGraph g) t ↔ ∃ ps, (x, ps) ∈ g ∧ t ∈ ps := by
  unfold reverseGraph
  rw [mem_lookupG_revFold]
  simp only [lookupG_init, List.not_mem_nil, false_or]
  constructor
  · rintro ⟨r, hr, rfl, h⟩
    exact ⟨r.2, hr, h⟩
  · rintro ⟨ps, hmem, h⟩
    exact ⟨(x, ps), hmem, rfl, h⟩

theorem keys_step_mono {acc : GraphT} {j : String} (ps : List String) (c : String)
    (h : j ∈ acc.map Prod.fst) :
    j ∈ ((ps.foldl (fun acc parent =>
      ainsert acc parent (lookupG acc parent ++ [c])) acc).map Prod.fst) := by
  induction ps generalizing acc with
  | nil => simpa only [List.foldl_nil]
  | cons hd tl ih =>
    simp only [List.foldl_cons]
    apply ih
    rw [← alookup_isSome_iff] at h ⊢
    rw [alookup_ainsert_isSome]
    simp [h]

theorem keys_reverseGraph (g : GraphT) {k : String} (h : k ∈ g.map Prod.fst) :
    k ∈ (reverseGraph g).map Prod.fst := by
  unfold reverseGraph
  have hinit : k ∈ (g.map fun p => (p.1, ([] : List String))).map Prod.fst := by
    simpa [List.map_map, Function.comp] using h
  generalize (g.map fun p => (p.1, ([] : List String))) = acc at hinit
  clear h
  induction g generalizing acc with
  | nil => simpa using hinit
  | cons hd tl ih =>
    simp only [List.foldl_cons]
    exact ih _ (keys_step_mono hd.2 hd.1 hinit)



/-- C7: for every forward graph `g` (with the distinct keys of a Go map),
`c ∈ reverseGraph(g)[p]` iff `p ∈ g[c]`; every key of `g` is a key of
`reverseGraph g`; and on the Scenario F input the result equals the expected
reverse graph on the nose (hence also with child lists compared as sets). -/
theorem reverseGraph_correct :
    (∀ g : GraphT, (g.map Prod.fst).Nodup →
      ∀ c p : String, (c ∈ lookupG (reverseGraph g) p ↔ p ∈ lookupG g c)) ∧
    (∀ g : GraphT, ∀ k ∈ g.map Prod.fst, k ∈ (reverseGraph g).map Prod.fst) ∧
    reverseGraph scenarioFGraph = scenarioFExpected := by
  refine ⟨fun g hnd c p => ?_, fun g k hk => keys_reverseGraph g hk, by decide⟩
  rw [mem_lookupG_reverseGraph]
  constructor
  · rintro ⟨ps, hmem, hp⟩
    have hl := alookup_eq_some_of_mem hnd hmem
    simp [lookupG, hl, hp]
  · intro hp
    rcases halo : alookup g c with _ | ps
    · simp [lookupG, halo] at hp
    · exact ⟨ps, mem_of_alookup_eq_some halo, by simpa [lookupG, halo] using hp⟩

/-- Witness for `reverseGraph_correct`: its universally quantified parts applied
at the Scenario F graph and the edge `g → f`. -/
theorem reverseGraph_correct_witness :
    (scenarioFGraph.map Prod.fst).Nodup ∧
      ("f" ∈ lookupG (reverseGraph scenarioFGraph) "g" ↔ "g" ∈ lookupG scenarioFGraph "f") :=
  ⟨by decide, reverseGraph_correct.1 scenarioFGraph (by decide) "f" "g"⟩

/-! ### Combining ancestor and descendant visibility (claim C1) -/

theorem flatMap_congr_mem {α β : Type} {l : List α} {f g : α → List β}
    (h : ∀ a ∈ l, f a = g a) : l.flatMap f = l.flatMap g := by
  induction l with
  | nil => rfl
  | cons hd tl ih =>
    simp only [List.flatMap_cons]
    rw [h hd (List.mem_cons_self _ _), ih fun a ha => h a (List.mem_cons_of_mem _ ha)]

theorem replaces_iff (u1 u2 : UploadMeta) :
    replaces u1 u2 = true ↔
      (packedDistance u1 < packedDistance u2 ∨
        (packedDistance u1 = packedDistance u2 ∧ u1.UploadID < u2.UploadID)) := by
  unfold replaces packedDistance
  simp

/-- Shared refinement: `combineVisibleUploadsForCommit` agrees with the
spec-worded `combineSpec` on seed maps whose packed values are bare distances
small enough not to touch the marker bits. -/
theorem combine_eq_spec_helper (A D : TokenMapT) (dA dD : Nat)
    (hA : ∀ p ∈ A, p.2.Flags + dA < 2 ^ 29)
    (hD : ∀ p ∈ D, p.2.Flags + dD < 2 ^ 29) :
    combineVisibleUploadsForCommit A D dA dD = combineSpec A D dA dD := by
  unfold combineVisibleUploadsForCommit combineSpec
  congr 1
  · apply flatMap_congr_mem
    intro p hp
    have hpb : p.2.Flags + dA < 2 ^ 29 := hA p hp
    have hmod : (p.2.Flags + dA) % U32 = p.2.Flags + dA := by
      unfold U32; omega
    have hav : (p.2.Flags + dA) ||| FlagAncestorVisible
        = p.2.Flags + dA + FlagAncestorVisible := lor_av_clean hpb
    rcases hlook : alookup D p.1 with _ | q
    · simp only [hlook, hmod, hav]
    · have hqb : q.Flags + dD < 2 ^ 29 := hD (p.1, q) (mem_of_alookup_eq_some hlook)
      have hqmod : (q.Flags + dD) % U32 = q.Flags + dD := by
        unfold U32; omega
      have hqclean : andNot32 ((q.Flags + dD) % U32) FlagAncestorVisible = q.Flags + dD := by
        rw [hqmod]; exact andNot32_av_clean hqb
      have hrep : (replaces ⟨q.UploadID, andNot32 ((q.Flags + dD) % U32) FlagAncestorVisible⟩
            ⟨p.2.UploadID, ((p.2.Flags + dA) % U32) ||| FlagAncestorVisible⟩ = true) ↔
          (q.Flags + dD < p.2.Flags + dA ∨
            (q.Flags + dD = p.2.Flags + dA ∧ q.UploadID < p.2.UploadID)) := by
        rw [replaces_iff]
        simp only [hqclean, hmod, hav]
        rw [packedDistance_clean hqb, packedDistance_av hpb]
      simp only [hlook]
      by_cases hcond : q.Flags + dD < p.2.Flags + dA ∨
          (q.Flags + dD = p.2.Flags + dA ∧ q.UploadID < p.2.UploadID)
      · rw [if_pos (hrep.mpr hcond), if_pos hcond]
        simp only [hqclean, hmod, hav]
        rw [lor_ov_after_av hpb]
      · rw [if_neg (fun hh => hcond (hrep.mp hh)), if_neg hcond]
        simp only [hmod, hav]
  · apply flatMap_congr_mem
    intro p hp
    have hpb : p.2.Flags + dD < 2 ^ 29 := hD p hp
    have hmod : (p.2.Flags + dD) % U32 = p.2.Flags + dD := by
      unfold U32; omega
    rcases hlook : alookup A p.1 with _ | q
    · simp only [hlook, hmod, andNot32_av_clean hpb]
    · simp only [hlook]

/-- C1 (§4.5): on seed maps whose packed values are bare distances small enough
not to touch the marker bits, `combineVisibleUploadsForCommit` emits exactly
what the spec prescribes per token: every ancestor upload with `dA` added and
`ANCESTOR_VISIBLE` set; additionally, for a token shared with the descendant
side, the descendant upload (with `dD` added, `ANCESTOR_VISIBLE` clear) exactly
when its distance is smaller — ties to the smaller upload id — in which case the
ancestor upload carries `OVERWRITTEN`; and the descendant upload alone for
tokens only on the descendant side. -/
theorem combineVisibleUploads_eq_spec (A D : TokenMapT) (dA dD : Nat)
    (hA : ∀ p ∈ A, p.2.Flags + dA < 2 ^ 29)
    (hD : ∀ p ∈ D, p.2.Flags + dD < 2 ^ 29) :
    combineVisibleUploadsForCommit A D dA dD = combineSpec A D dA dD :=
  combine_eq_spec_helper A D dA dD hA hD

/-- Witness for `combineVisibleUploads_eq_spec` at concrete seed maps: the
descendant upload 2 (distance 2) beats the ancestor upload 1 (distance 5), and
token `s` exists only on the descendant side. -/
theorem combineVisibleUploads_eq_spec_witness :
    (∀ p ∈ [("t", (⟨1, 3⟩ : UploadMeta))], p.2.Flags + 2 < 2 ^ 29) ∧
    (∀ p ∈ [("t", (⟨2, 1⟩ : UploadMeta)), ("s", ⟨7, 0⟩)], p.2.Flags + 1 < 2 ^ 29) ∧
    combineVisibleUploadsForCommit [("t", ⟨1, 3⟩)] [("t", ⟨2, 1⟩), ("s", ⟨7, 0⟩)] 2 1
      = combineSpec [("t", ⟨1, 3⟩)] [("t", ⟨2, 1⟩), ("s", ⟨7, 0⟩)] 2 1 :=
  ⟨by decide, by decide,
    combineVisibleUploads_eq_spec _ _ _ _ (by decide) (by decide)⟩


/-! ### Stream-step inversion -/

/-- Any successful `streamStep` emission is fully determined by the two
traversals: either a full visibility envelope (when the emission condition
holds) or a link envelope (when it does not). -/
theorem streamStep_some_inv {g : GraphData} {c : String} {env : Envelope}
    (h : streamStep g c = some (some env)) :
    ∃ ac ad f1 dc dd f2,
      traverseForCommit g.fuel g.graph g.ancestorUploads c = some (ac, ad, f1) ∧
      traverseForCommit g.fuel g.reverseGraph g.descendantUploads c = some (dc, dd, f2) ∧
      (!f1 && !f2) = false ∧
      ((((f1 && decide (ad = 0)) || (f2 && decide (dd = 0))
          || decide ((combineVisibleUploadsForCommit (lookupSeedD g.ancestorUploads ac)
              (lookupSeedD g.descendantUploads dc) ad dd).length
              ≤ if f1 && f2 then 2 else 1)) = true
          ∧ env = Envelope.uploads ⟨c, combineVisibleUploadsForCommit
              (lookupSeedD g.ancestorUploads ac) (lookupSeedD g.descendantUploads dc) ad dd⟩)
        ∨ (((f1 && decide (ad = 0)) || (f2 && decide (dd = 0))
          || decide ((combineVisibleUploadsForCommit (lookupSeedD g.ancestorUploads ac)
              (lookupSeedD g.descendantUploads dc) ad dd).length
              ≤ if f1 && f2 then 2 else 1)) = false
          ∧ env = Envelope.links ⟨c, strPtrOk ac f1, ad, strPtrOk dc f2, dd⟩)) := by
  unfold streamStep at h
  rcases ht1 : traverseForCommit g.fuel g.graph g.ancestorUploads c with _ | ⟨ac, ad, f1⟩
  · rw [ht1] at h
    simp at h
  rcases ht2 : traverseForCommit g.fuel g.reverseGraph g.descendantUploads c with _ | ⟨dc, dd, f2⟩
  · rw [ht1, ht2] at h
    simp at h
  rw [ht1, ht2] at h
  simp only at h
  refine ⟨ac, ad, f1, dc, dd, f2, rfl, rfl, ?_⟩
  by_cases hb0 : (!f1 && !f2) = true
  · simp [hb0] at h
  · rw [Bool.not_eq_true] at hb0
    simp only [hb0, Bool.false_eq_true, if_false] at h
    refine ⟨hb0, ?_⟩
    by_cases hlen : (lookupSeedD g.ancestorUploads ac).length
        + (lookupSeedD g.descendantUploads dc).length = 0
    · simp [hlen] at h
    · simp only [hlen, if_false] at h
      by_cases hc : ((f1 && decide (ad = 0)) || (f2 && decide (dd = 0))
          || decide ((combineVisibleUploadsForCommit (lookupSeedD g.ancestorUploads ac)
              (lookupSeedD g.descendantUploads dc) ad dd).length
              ≤ if f1 && f2 then 2 else 1)) = true
      · simp only [hc, if_true, Option.some.injEq] at h
        exact Or.inl ⟨hc, h.symm⟩
      · rw [Bool.not_eq_true] at hc
        simp only [hc, Bool.false_eq_true, if_false, Option.some.injEq] at h
        exact Or.inr ⟨hc, h.symm⟩

/-- Every envelope in the stream's output arises from `streamStep` on one of the
iterated commits. -/
theorem mem_streamList {g : GraphData} {cs : List String} {envs : List Envelope}
    (h : streamList g cs = some envs) {env : Envelope} (hm : env ∈ envs) :
    ∃ c ∈ cs, streamStep g c = some (some env) := by
  induction cs generalizing envs with
  | nil =>
    simp only [streamList, Option.some.injEq] at h
    subst h
    simp at hm
  | cons hd tl ih =>
    unfold streamList at h
    rcases hs : streamStep g hd with _ | e
    · rw [hs] at h; simp at h
    rcases hr : streamList g tl with _ | envs2
    · rw [hs, hr] at h; simp at h
    rw [hs, hr] at h
    simp only [Option.some.injEq] at h
    subst h
    cases e with
    | none =>
      obtain ⟨c, hc, hstep⟩ := ih hr hm
      exact ⟨c, List.mem_cons_of_mem _ hc, hstep⟩
    | some env2 =>
      rcases List.mem_cons.mp hm with he | hm2
      · subst he
        exact ⟨hd, List.mem_cons_self _ _, hs⟩
      · obtain ⟨c, hc, hstep⟩ := ih hr hm2
        exact ⟨c, List.mem_cons_of_mem _ hc, hstep⟩

/-- The commit recorded in an emitted envelope is the commit whose step emitted
it. -/
theorem streamStep_commitOf {g : GraphData} {c : String} {env : Envelope}
    (h : streamStep g c = some (some env)) : env.commitOf = c := by
  obtain ⟨ac, ad, f1, dc, dd, f2, -, -, -, hcase⟩ := streamStep_some_inv h
  rcases hcase with ⟨-, rfl⟩ | ⟨-, rfl⟩ <;> rfl

/-- A found traversal's reported distance never falls below its starting
accumulator. -/
theorem traverseForCommitAux_dist_ge {graph : GraphT} {uploads : SeedMapT} :
    ∀ {fuel : Nat} {c : String} {d : Nat} {x : String} {dist : Nat},
      traverseForCommitAux graph uploads fuel c d = some (x, dist, true) → d ≤ dist := by
  intro fuel
  induction fuel with
  | zero => intro c d x dist h; simp [traverseForCommitAux] at h
  | succ n ih =>
    intro c d x dist h
    unfold traverseForCommitAux at h
    by_cases hs : (alookup uploads c).isSome
    · simp only [hs, if_true, Option.some.injEq, Prod.mk.injEq] at h
      omega
    · simp only [hs, Bool.false_eq_true, if_false] at h
      rcases hg : lookupG graph c with _ | ⟨p, ps⟩
      · rw [hg] at h
        simp only [Option.some.injEq, Prod.mk.injEq] at h
        exact absurd h.2.2 Bool.false_ne_true
      · rw [hg] at h
        have := ih h
        omega

/-- The traversal reports the commit itself at distance zero exactly when the
commit has a seed entry. -/
theorem traverseForCommit_zero_iff {fuel : Nat} {graph : GraphT} {uploads : SeedMapT}
    {c x : String} {dist : Nat} {f : Bool}
    (h : traverseForCommit fuel graph uploads c = some (x, dist, f)) :
    (f = true ∧ dist = 0) ↔ (alookup uploads c).isSome := by
  unfold traverseForCommit at h
  cases fuel with
  | zero => simp [traverseForCommitAux] at h
  | succ n =>
    unfold traverseForCommitAux at h
    by_cases hs : (alookup uploads c).isSome
    · simp only [hs, if_true, Option.some.injEq, Prod.mk.injEq] at h
      obtain ⟨-, h2, h3⟩ := h
      simp [hs, h2.symm, h3.symm]
    · rw [Bool.not_eq_true] at hs
      rw [hs]
      simp only [Bool.false_eq_true, iff_false, not_and]
      intro hf hdist
      simp only [hs, Bool.false_eq_true, if_false] at h
      rcases hg : lookupG graph c with _ | ⟨p, ps⟩
      · rw [hg] at h
        simp only [Option.some.injEq, Prod.mk.injEq] at h
        obtain ⟨-, -, h3⟩ := h
        rw [hf] at h3
        exact Bool.false_ne_true h3
      · rw [hg] at h
        rw [hf] at h
        have := traverseForCommitAux_dist_ge h
        omega

/-- C3 (reconstruction law): whenever the stream emits a `LinkRelationship` for
commit `c` carrying ancestor `a` at distance `da` and descendant `d` at
distance `dd`, combining the seed maps stored for `a` and `d` with those
distances yields exactly the upload list `UploadsVisibleAtCommit` returns for
`c` (list equality, hence equality up to reordering). -/
theorem reconstruction_law (g : GraphData) (envs : List Envelope) (c a d : String) (da dd : Nat)
    (hs : stream g = some envs)
    (hmem : Envelope.links ⟨c, some a, da, some d, dd⟩ ∈ envs) :
    UploadsVisibleAtCommit g c
      = some (combineVisibleUploadsForCommit (lookupSeedD g.ancestorUploads a)
          (lookupSeedD g.descendantUploads d) da dd) := by
  obtain ⟨c2, hc2, hstep⟩ := mem_streamList hs hmem
  have hco := streamStep_commitOf hstep
  simp only [Envelope.commitOf] at hco
  subst hco
  obtain ⟨ac, ad, f1, dc, dd2, f2, ht1, ht2, -, hcase⟩ := streamStep_some_inv hstep
  rcases hcase with ⟨-, heq⟩ | ⟨-, heq⟩
  · cases heq
  · simp only [Envelope.links.injEq, LinkRelationship.mk.injEq] at heq
    obtain ⟨-, ha, hda, hd, hdd⟩ := heq
    cases f1 with
    | false => simp [strPtrOk] at ha
    | true =>
      cases f2 with
      | false => simp [strPtrOk] at hd
      | true =>
        simp only [strPtrOk, if_true, Option.some.injEq] at ha hd
        subst ha; subst hd; subst hda; subst hdd
        unfold UploadsVisibleAtCommit traverseForUploads
        rw [ht1, ht2]
        rfl

/-- Witness for `reconstruction_law`: on the Scenario C input the stream emits
the link for commit `l` (ancestor `i`, descendant `n`, both at distance 1), and
the law is realised there. -/
theorem reconstruction_law_witness :
    UploadsVisibleAtCommit gC "l"
      = some (combineVisibleUploadsForCommit (lookupSeedD gC.ancestorUploads "i")
          (lookupSeedD gC.descendantUploads "n") 1 1) :=
  reconstruction_law gC ((stream gC).getD []) "l" "i" "n" 1 1 (by rfl) (by decide)

/-- C5: for every commit the stream does not skip, the emitted envelope is a
full `VisibilityRelationship` exactly when the commit is itself a seed in one
direction (equivalently, a traversal found it at distance 0), or the combined
upload list's length is within the threshold — at most 1 when only one
direction found a seed, at most 2 when both did; in every other non-skipped
case it is a `LinkRelationship`. -/
theorem emission_shape (g : GraphData) (c : String) (env : Envelope)
    (h : streamStep g c = some (some env)) :
    ∃ ac ad f1 dc dd f2,
      traverseForCommit g.fuel g.graph g.ancestorUploads c = some (ac, ad, f1) ∧
      traverseForCommit g.fuel g.reverseGraph g.descendantUploads c = some (dc, dd, f2) ∧
      ((f1 = true ∧ ad = 0) ↔ (alookup g.ancestorUploads c).isSome) ∧
      ((f2 = true ∧ dd = 0) ↔ (alookup g.descendantUploads c).isSome) ∧
      ((∃ v, env = Envelope.uploads v) ↔
        ((f1 = true ∧ ad = 0) ∨ (f2 = true ∧ dd = 0) ∨
          (combineVisibleUploadsForCommit (lookupSeedD g.ancestorUploads ac)
              (lookupSeedD g.descendantUploads dc) ad dd).length
            ≤ if f1 && f2 then 2 else 1)) ∧
      ((∃ lr, env = Envelope.links lr) ↔
        ¬((f1 = true ∧ ad = 0) ∨ (f2 = true ∧ dd = 0) ∨
          (combineVisibleUploadsForCommit (lookupSeedD g.ancestorUploads ac)
              (lookupSeedD g.descendantUploads dc) ad dd).length
            ≤ if f1 && f2 then 2 else 1)) := by
  obtain ⟨ac, ad, f1, dc, dd, f2, ht1, ht2, -, hcase⟩ := streamStep_some_inv h
  refine ⟨ac, ad, f1, dc, dd, f2, ht1, ht2,
    traverseForCommit_zero_iff ht1, traverseForCommit_zero_iff ht2, ?_⟩
  have hcond : (((f1 && decide (ad = 0)) || (f2 && decide (dd = 0))
      || decide ((combineVisibleUploadsForCommit (lookupSeedD g.ancestorUploads ac)
          (lookupSeedD g.descendantUploads dc) ad dd).length
          ≤ if f1 && f2 then 2 else 1)) = true) ↔
      ((f1 = true ∧ ad = 0) ∨ (f2 = true ∧ dd = 0) ∨
        (combineVisibleUploadsForCommit (lookupSeedD g.ancestorUploads ac)
            (lookupSeedD g.descendantUploads dc) ad dd).length
          ≤ if f1 && f2 then 2 else 1) := by
    simp only [Bool.or_eq_true, Bool.and_eq_true, decide_eq_true_eq]
    exact or_assoc
  rcases hcase with ⟨hc, rfl⟩ | ⟨hc, rfl⟩
  · have hp := hcond.mp hc
    refine ⟨⟨fun _ => hp, fun _ => ⟨_, rfl⟩⟩, ?_⟩
    constructor
    · rintro ⟨lr, hlr⟩
      cases hlr
    · intro hn
      exact absurd hp hn
  · have hp : ¬((f1 = true ∧ ad = 0) ∨ (f2 = true ∧ dd = 0) ∨
        (combineVisibleUploadsForCommit (lookupSeedD g.ancestorUploads ac)
            (lookupSeedD g.descendantUploads dc) ad dd).length
          ≤ if f1 && f2 then 2 else 1) := by
      intro hn
      rw [hcond.mpr hn] at hc
      simp at hc
    refine ⟨⟨?_, fun hpp => absurd hpp hp⟩, ⟨fun _ => hp, fun _ => ⟨_, rfl⟩⟩⟩
    rintro ⟨v, hv⟩
    cases hv

/-- Witness for `emission_shape` on the `cgB` input at commit `b`: the step
emits a full relationship (single upload, one direction found), and the
characterisation is realised. -/
theorem emission_shape_witness :
    streamStep gB "b" = some (some (Envelope.uploads ⟨"b", [⟨50, FlagAncestorVisible + 1⟩]⟩)) ∧
    (∃ ac ad f1 dc dd f2,
      traverseForCommit gB.fuel gB.graph gB.ancestorUploads "b" = some (ac, ad, f1) ∧
      traverseForCommit gB.fuel gB.reverseGraph gB.descendantUploads "b" = some (dc, dd, f2) ∧
      ((f1 = true ∧ ad = 0) ↔ (alookup gB.ancestorUploads "b").isSome) ∧
      ((f2 = true ∧ dd = 0) ↔ (alookup gB.descendantUploads "b").isSome) ∧
      ((∃ v, Envelope.uploads ⟨"b", [⟨50, FlagAncestorVisible + 1⟩]⟩ = Envelope.uploads v) ↔
        ((f1 = true ∧ ad = 0) ∨ (f2 = true ∧ dd = 0) ∨
          (combineVisibleUploadsForCommit (lookupSeedD gB.ancestorUploads ac)
              (lookupSeedD gB.descendantUploads dc) ad dd).length
            ≤ if f1 && f2 then 2 else 1)) ∧
      ((∃ lr, Envelope.uploads ⟨"b", [⟨50, FlagAncestorVisible + 1⟩]⟩ = Envelope.links lr) ↔
        ¬((f1 = true ∧ ad = 0) ∨ (f2 = true ∧ dd = 0) ∨
          (combineVisibleUploadsForCommit (lookupSeedD gB.ancestorUploads ac)
              (lookupSeedD gB.descendantUploads dc) ad dd).length
            ≤ if f1 && f2 then 2 else 1))) :=
  ⟨by decide, emission_shape gB "b" _ (by decide)⟩

/-- C8 (Scenario C): on the fourteen-commit reference input, the stream emits
for commit `l` a link with ancestor `i` at distance 1 and descendant `n` at
distance 1, and for commit `a` a full visibility relationship whose uploads,
sorted by id, are exactly 50 at distance 0 with `ANCESTOR_VISIBLE` (and not
`OVERWRITTEN`), 51 at distance 2 with neither marker, and 52 at distance 1 with
neither marker. -/
theorem scenarioC_emissions :
    ∃ envs, streamOfInput cgC ordC viewC = some envs ∧
      Envelope.links ⟨"l", some "i", 1, some "n", 1⟩ ∈ envs ∧
      ∃ us, Envelope.uploads ⟨"a", us⟩ ∈ envs ∧
        (sortUploads us).map
            (fun u => (u.UploadID, packedDistance u, ancestorVisibleOf u, overwrittenOf u))
          = [(50, 0, true, false), (51, 2, false, false), (52, 1, false, false)] :=
  ⟨(streamOfInput cgC ordC viewC).getD [], by rfl, by decide,
    [⟨50, FlagAncestorVisible⟩, ⟨52, 1⟩, ⟨51, 2⟩], by decide, by decide⟩

/-- C9: the batch inserter that `CalculateVisibleUploads` creates for
`lsif_nearest_uploads_links` writes four columns — `repository_id`,
`commit_bytea`, `ancestor_commit_bytea` and a single `distance` — so
`batchInsertLinks` emits no descendant pointer or descendant distance at all,
while the table contract (and the claim) has six columns with nullable
ancestor/descendant pointers; the code also names a `distance` column absent
from that table. -/
theorem linkInserter_columns_mismatch :
    nearestUploadsLinksInserterColumns
        = ["repository_id", "commit_bytea", "ancestor_commit_bytea", "distance"] ∧
    "descendant_commit_bytea" ∉ nearestUploadsLinksInserterColumns ∧
    "descendant_distance" ∉ nearestUploadsLinksInserterColumns ∧
    "ancestor_distance" ∉ nearestUploadsLinksInserterColumns ∧
    "distance" ∉ lsifNearestUploadsLinksColumns ∧
    nearestUploadsLinksInserterColumns.length = 4 ∧
    lsifNearestUploadsLinksColumns.length = 6 := by
  refine ⟨rfl, by decide, by decide, by decide, by decide, rfl, rfl⟩

/-! ### Emission order (claim C6) -/

theorem streamList_map_commitOf {g : GraphData} {cs : List String} {envs : List Envelope}
    (h : streamList g cs = some envs) :
    envs.map Envelope.commitOf = cs.filter fun c => emitsEnvelope g c := by
  induction cs generalizing envs with
  | nil =>
    simp only [streamList, Option.some.injEq] at h
    subst h
    rfl
  | cons hd tl ih =>
    unfold streamList at h
    rcases hs : streamStep g hd with _ | e
    · rw [hs] at h; simp at h
    rcases hr : streamList g tl with _ | envs2
    · rw [hs, hr] at h; simp at h
    rw [hs, hr] at h
    simp only [Option.some.injEq] at h
    subst h
    cases e with
    | none =>
      have he : emitsEnvelope g hd = false := by
        unfold emitsEnvelope
        rw [hs]
      simp only [List.filter_cons, he, Bool.false_eq_true, if_false]
      exact ih hr
    | some env =>
      have he : emitsEnvelope g hd = true := by
        unfold emitsEnvelope
        rw [hs]
      simp only [List.filter_cons, he, if_true, List.map_cons]
      rw [streamStep_commitOf hs, ih hr]

theorem charListLe_total : ∀ as bs : List Char, charListLe as bs = true ∨ charListLe bs as = true
  | [], _ => Or.inl rfl
  | _ :: _, [] => Or.inr rfl
  | a :: as, b :: bs => by
    unfold charListLe
    rcases Nat.lt_trichotomy a.val.toNat b.val.toNat with h | h | h
    · left; simp [h]
    · have h2 : ¬a.val.toNat < b.val.toNat := by omega
      have h3 : ¬b.val.toNat < a.val.toNat := by omega
      rcases charListLe_total as bs with hr | hr
      · left; simp [h2, h3, hr]
      · right; simp [h2, h3, hr]
    · right; simp [h]

theorem strLe_total (s t : String) : strLe s t = true ∨ strLe t s = true :=
  charListLe_total s.data t.data

theorem insertSorted_perm (s : String) (l : List String) :
    List.Perm (insertSorted s l) (s :: l) := by
  induction l with
  | nil => simp [insertSorted]
  | cons hd tl ih =>
    unfold insertSorted
    by_cases hle : strLe s hd = true
    · simp [hle]
    · simp only [hle, Bool.false_eq_true, if_false]
      exact (List.Perm.cons hd ih).trans (List.Perm.swap s hd tl)

theorem sortStrings_perm (l : List String) : List.Perm (sortStrings l) l := by
  induction l with
  | nil => simp [sortStrings]
  | cons hd tl ih =>
    unfold sortStrings
    simp only [List.foldr_cons]
    exact (insertSorted_perm hd (sortStrings tl)).trans (List.Perm.cons hd ih)

theorem charListLe_trans : ∀ (as bs cs : List Char), charListLe as bs = true →
    charListLe bs cs = true → charListLe as cs = true := by
  intro as
  induction as with
  | nil => intro bs cs h1 h2; rfl
  | cons a as ih =>
    intro bs cs h1 h2
    cases bs with
    | nil => simp [charListLe] at h1
    | cons b bs =>
      cases cs with
      | nil => simp [charListLe] at h2
      | cons c cs =>
        unfold charListLe at h1 h2 ⊢
        by_cases hab : a.val.toNat < b.val.toNat
        · by_cases hbc : b.val.toNat < c.val.toNat
          · simp [show a.val.toNat < c.val.toNat by omega]
          · by_cases hcb : c.val.toNat < b.val.toNat
            · simp [hbc, hcb] at h2
            · simp [show a.val.toNat < c.val.toNat by omega]
        · by_cases hba : b.val.toNat < a.val.toNat
          · simp [hab, hba] at h1
          · simp only [hab, hba, Bool.false_eq_true, if_false] at h1
            by_cases hbc : b.val.toNat < c.val.toNat
            · simp [show a.val.toNat < c.val.toNat by omega]
            · by_cases hcb : c.val.toNat < b.val.toNat
              · simp [hbc, hcb] at h2
              · simp only [hbc, hcb, Bool.false_eq_true, if_false] at h2
                have hnac : ¬a.val.toNat < c.val.toNat := by omega
                have hnca : ¬c.val.toNat < a.val.toNat := by omega
                simp only [hnac, hnca, Bool.false_eq_true, if_false]
                exact ih bs cs h1 h2

theorem strLe_trans {s t u : String} (h1 : strLe s t = true) (h2 : strLe t u = true) :
    strLe s u = true :=
  charListLe_trans s.data t.data u.data h1 h2

theorem insertSorted_sorted {s : String} {l : List String}
    (h : l.Pairwise fun a b => strLe a b = true) :
    (insertSorted s l).Pairwise fun a b => strLe a b = true := by
  induction l with
  | nil => simp [insertSorted]
  | cons hd tl ih =>
    rcases List.pairwise_cons.mp h with ⟨hhd, htl⟩
    unfold insertSorted
    by_cases hle : strLe s hd = true
    · rw [if_pos hle]
      refine List.pairwise_cons.mpr ⟨?_, h⟩
      intro b hb
      rcases List.mem_cons.mp hb with rfl | hb2
      · exact hle
      · exact strLe_trans hle (hhd b hb2)
    · simp only [hle, Bool.false_eq_true, if_false]
      refine List.pairwise_cons.mpr ⟨?_, ih htl⟩
      intro b hb
      have hb2 : b ∈ s :: tl := (insertSorted_perm s tl).mem_iff.mp hb
      rcases List.mem_cons.mp hb2 with rfl | hb3
      · rcases strLe_total hd b with hx | hx
        · exact hx
        · exact absurd hx hle
      · exact hhd b hb3

theorem sortStrings_sorted (l : List String) :
    (sortStrings l).Pairwise fun a b => strLe a b = true := by
  induction l with
  | nil => simp [sortStrings]
  | cons hd tl ih =>
    unfold sortStrings
    simp only [List.foldr_cons]
    exact insertSorted_sorted ih

theorem NewGraph_inv {graph : GraphT} {order : List String} {view : CommitGraphView}
    {g : GraphData} (hg : NewGraph graph order view = some g) :
    g.commits = sortStrings order ∧ g.fuel = order.length + 1 ∧ g.graph = graph ∧
      g.reverseGraph = reverseGraph graph := by
  unfold NewGraph at hg
  simp only [] at hg
  rcases h1 : populateUploadsByTraversal graph (reverseGraph graph) order view false
      (order.length + 1) with _ | mA
  · rw [h1] at hg; simp at hg
  rcases h2 : populateUploadsByTraversal (reverseGraph graph) graph order view true
      (order.length + 1) with _ | mD
  · rw [h1, h2] at hg; simp at hg
  rw [h1, h2] at hg
  simp only [Option.some.injEq] at hg
  subst hg
  exact ⟨rfl, rfl, rfl, rfl⟩

/-- C6 (amended): the stream visits commits in lexicographically sorted order —
`NewGraph` sorts the supplied order before `Stream` iterates it — and each
retained commit emits exactly one envelope in that order: the emitted commit
sequence is exactly the sorted order filtered to the emitting commits, is
sorted, and has no duplicates. -/
theorem stream_order_sorted (graph : GraphT) (order : List String) (view : CommitGraphView)
    (g : GraphData) (envs : List Envelope)
    (hv : ValidInput graph order view)
    (hg : NewGraph graph order view = some g)
    (hs : stream g = some envs) :
    envs.map Envelope.commitOf = (sortStrings order).filter (fun c => emitsEnvelope g c) ∧
    (envs.map Envelope.commitOf).Pairwise (fun a b => strLe a b = true) ∧
    (envs.map Envelope.commitOf).Nodup := by
  obtain ⟨hc, -, -, -⟩ := NewGraph_inv hg
  unfold stream at hs
  rw [hc] at hs
  have hmap := streamList_map_commitOf hs
  refine ⟨hmap, ?_, ?_⟩
  · rw [hmap]
    exact (sortStrings_sorted order).filter _
  · rw [hmap]
    apply List.Nodup.filter
    exact ((sortStrings_perm order).nodup_iff).mpr hv.orderNodup

/-- Witness for `stream_order_sorted` at the `cgB` input. -/
theorem stream_order_sorted_witness :
    ValidInput cgB ordB viewB ∧
    NewGraph cgB ordB viewB = some gB ∧
    stream gB = some [Envelope.uploads ⟨"b", [⟨50, FlagAncestorVisible + 1⟩]⟩,
      Envelope.uploads ⟨"z", [⟨50, FlagAncestorVisible⟩]⟩] ∧
    (([Envelope.uploads ⟨"b", [⟨50, FlagAncestorVisible + 1⟩]⟩,
        Envelope.uploads ⟨"z", [⟨50, FlagAncestorVisible⟩]⟩].map Envelope.commitOf)
        = (sortStrings ordB).filter (fun c => emitsEnvelope gB c) ∧
      ([Envelope.uploads ⟨"b", [⟨50, FlagAncestorVisible + 1⟩]⟩,
        Envelope.uploads ⟨"z", [⟨50, FlagAncestorVisible⟩]⟩].map Envelope.commitOf).Pairwise
          (fun a b => strLe a b = true) ∧
      ([Envelope.uploads ⟨"b", [⟨50, FlagAncestorVisible + 1⟩]⟩,
        Envelope.uploads ⟨"z", [⟨50, FlagAncestorVisible⟩]⟩].map Envelope.commitOf).Nodup) :=
  ⟨⟨by decide, by decide, by decide, by decide, by decide, by decide, by decide, by decide,
      by decide, by decide⟩,
    by rfl, by rfl,
    stream_order_sorted cgB ordB viewB gB _
      ⟨by decide, by decide, by decide, by decide, by decide, by decide, by decide, by decide,
        by decide, by decide⟩
      (by rfl) (by rfl)⟩

/-- C6, counterexample to the claim as stated: on the valid input with
topological order `[z, b]` (parent `z` first), the stream emits `b` before `z` —
`NewGraph` sorts the commit list, so emission follows lexicographic order, not
the supplied topological order. -/
theorem stream_order_counterexample :
    ValidInput cgB ordB viewB ∧
    NewGraph cgB ordB viewB = some gB ∧
    stream gB = some [Envelope.uploads ⟨"b", [⟨50, FlagAncestorVisible + 1⟩]⟩,
      Envelope.uploads ⟨"z", [⟨50, FlagAncestorVisible⟩]⟩] ∧
    emitsEnvelope gB "z" = true ∧ emitsEnvelope gB "b" = true ∧
    ([Envelope.uploads ⟨"b", [⟨50, FlagAncestorVisible + 1⟩]⟩,
        Envelope.uploads ⟨"z", [⟨50, FlagAncestorVisible⟩]⟩].map Envelope.commitOf) = ["b", "z"] ∧
    ordB = ["z", "b"] ∧
    (["b", "z"] : List String) ≠ ["z", "b"] :=
  ⟨⟨by decide, by decide, by decide, by decide, by decide, by decide, by decide, by decide,
      by decide, by decide⟩,
    by rfl, by rfl, by decide, by decide, by rfl, rfl, by decide⟩

theorem alookup_of_lookupG_ne_nil {g : GraphT} {c : String} (h : lookupG g c ≠ []) :
    alookup g c = some (lookupG g c) := by
  unfold lookupG at *
  rcases halo : alookup g c with _ | v
  · rw [halo] at h; simp at h
  · simp [halo]

theorem isSeed_eq_true_iff (G R : GraphT) (view : CommitGraphView) (c : String) :
    isSeed G R view c = true ↔
      ((alookup view.Meta c).isSome ∨ 1 < (lookupG R c).length ∨ 1 < (lookupG G c).length ∨
        (0 < (lookupG G c).length ∧ (lookupG R ((lookupG G c).headD "")).length ≠ 1) ∨
        (0 < (lookupG R c).length ∧ (lookupG G ((lookupG R c).headD "")).length ≠ 1)) := by
  unfold isSeed
  simp only [Bool.or_eq_true, Bool.and_eq_true, decide_eq_true_eq, Bool.not_eq_true',
    decide_eq_false_iff_not]
  tauto

/-- On the ancestor pass (`graph` forward, `reverseGraph graph` backward) the
code's seed test agrees with the presence-amended five-condition predicate. -/
theorem isSeed_fwd_iff (g : GraphT) (view : CommitGraphView)
    (hnd : (g.map Prod.fst).Nodup) (c : String) :
    (isSeed g (reverseGraph g) view c = true) ↔
      SeedConditionPresence g (reverseGraph g) view c := by
  rw [isSeed_eq_true_iff]
  unfold SeedConditionPresence
  constructor
  · rintro (h | h | h | ⟨hpos, hne⟩ | ⟨hpos, hne⟩)
    · exact Or.inl h
    · exact Or.inr (Or.inl h)
    · exact Or.inr (Or.inr (Or.inl h))
    · rcases hps : lookupG g c with _ | ⟨p, ps⟩
      · rw [hps] at hpos; simp at hpos
      · rcases ps with _ | ⟨p2, ps2⟩
        · rw [hps] at hne
          simp only [List.headD_cons] at hne
          have hmem : (c, [p]) ∈ g := by
            have hne2 : lookupG g c ≠ [] := by rw [hps]; simp
            have halo := alookup_of_lookupG_ne_nil hne2
            rw [hps] at halo
            exact mem_of_alookup_eq_some halo
          have hcp : c ∈ lookupG (reverseGraph g) p :=
            (mem_lookupG_reverseGraph g c p).mpr ⟨[p], hmem, by simp⟩
          have hlen : 0 < (lookupG (reverseGraph g) p).length :=
            List.length_pos.mpr (List.ne_nil_of_mem hcp)
          exact Or.inr (Or.inr (Or.inr (Or.inl ⟨p, rfl, by omega⟩)))
        · refine Or.inr (Or.inr (Or.inl ?_))
          simp only [List.length_cons]
          omega
    · rcases hcs : lookupG (reverseGraph g) c with _ | ⟨ch, cs⟩
      · rw [hcs] at hpos; simp at hpos
      · rcases cs with _ | ⟨ch2, cs2⟩
        · rw [hcs] at hne
          simp only [List.headD_cons] at hne
          have hch : ch ∈ lookupG (reverseGraph g) c := by rw [hcs]; simp
          obtain ⟨ps, hmem, hcp⟩ := (mem_lookupG_reverseGraph g ch c).mp hch
          have halo := alookup_eq_some_of_mem hnd hmem
          have hlk : lookupG g ch = ps := by unfold lookupG; rw [halo]; rfl
          have hlen : 0 < (lookupG g ch).length := by
            rw [hlk]
            exact List.length_pos.mpr (List.ne_nil_of_mem hcp)
          exact Or.inr (Or.inr (Or.inr (Or.inr ⟨ch, rfl, by omega⟩)))
        · refine Or.inr (Or.inl ?_)
          simp only [List.length_cons]
          omega
  · rintro (h | h | h | ⟨p, hp, hlen⟩ | ⟨ch, hch, hlen⟩)
    · exact Or.inl h
    · exact Or.inr (Or.inl h)
    · exact Or.inr (Or.inr (Or.inl h))
    · refine Or.inr (Or.inr (Or.inr (Or.inl ⟨by rw [hp]; simp, ?_⟩)))
      rw [hp]
      simp only [List.headD_cons]
      omega
    · refine Or.inr (Or.inr (Or.inr (Or.inr ⟨by rw [hch]; simp, ?_⟩)))
      rw [hch]
      simp only [List.headD_cons]
      omega

/-- On the descendant pass (`reverseGraph graph` forward, `graph` backward) the
code's seed test agrees with the same presence-amended predicate. -/
theorem isSeed_bwd_iff (g : GraphT) (view : CommitGraphView)
    (hnd : (g.map Prod.fst).Nodup) (c : String) :
    (isSeed (reverseGraph g) g view c = true) ↔
      SeedConditionPresence g (reverseGraph g) view c := by
  rw [isSeed_eq_true_iff]
  unfold SeedConditionPresence
  constructor
  · rintro (h | h | h | ⟨hpos, hne⟩ | ⟨hpos, hne⟩)
    · exact Or.inl h
    · exact Or.inr (Or.inr (Or.inl h))
    · exact Or.inr (Or.inl h)
    · rcases hcs : lookupG (reverseGraph g) c with _ | ⟨ch, cs⟩
      · rw [hcs] at hpos; simp at hpos
      · rcases cs with _ | ⟨ch2, cs2⟩
        · rw [hcs] at hne
          simp only [List.headD_cons] at hne
          have hch : ch ∈ lookupG (reverseGraph g) c := by rw [hcs]; simp
          obtain ⟨ps, hmem, hcp⟩ := (mem_lookupG_reverseGraph g ch c).mp hch
          have halo := alookup_eq_some_of_mem hnd hmem
          have hlk : lookupG g ch = ps := by unfold lookupG; rw [halo]; rfl
          have hlen : 0 < (lookupG g ch).length := by
            rw [hlk]
            exact List.length_pos.mpr (List.ne_nil_of_mem hcp)
          exact Or.inr (Or.inr (Or.inr (Or.inr ⟨ch, rfl, by omega⟩)))
        · refine Or.inr (Or.inl ?_)
          simp only [List.length_cons]
          omega
    · rcases hps : lookupG g c with _ | ⟨p, ps⟩
      · rw [hps] at hpos; simp at hpos
      · rcases ps with _ | ⟨p2, ps2⟩
        · rw [hps] at hne
          simp only [List.headD_cons] at hne
          have hmem : (c, [p]) ∈ g := by
            have hne2 : lookupG g c ≠ [] := by rw [hps]; simp
            have halo := alookup_of_lookupG_ne_nil hne2
            rw [hps] at halo
            exact mem_of_alookup_eq_some halo
          have hcp : c ∈ lookupG (reverseGraph g) p :=
            (mem_lookupG_reverseGraph g c p).mpr ⟨[p], hmem, by simp⟩
          have hlen : 0 < (lookupG (reverseGraph g) p).length :=
            List.length_pos.mpr (List.ne_nil_of_mem hcp)
          exact Or.inr (Or.inr (Or.inr (Or.inl ⟨p, rfl, by omega⟩)))
        · refine Or.inr (Or.inr (Or.inl ?_))
          simp only [List.length_cons]
          omega
  · rintro (h | h | h | ⟨p, hp, hlen⟩ | ⟨ch, hch, hlen⟩)
    · exact Or.inl h
    · exact Or.inr (Or.inr (Or.inl h))
    · exact Or.inr (Or.inl h)
    · refine Or.inr (Or.inr (Or.inr (Or.inr ⟨by rw [hp]; simp, ?_⟩)))
      rw [hp]
      simp only [List.headD_cons]
      omega
    · refine Or.inr (Or.inr (Or.inr (Or.inl ⟨by rw [hch]; simp, ?_⟩)))
      rw [hch]
      simp only [List.headD_cons]
      omega

/-! ### Seed-map population: keys and termination -/

theorem populateLoop_keys {G R : GraphT} {view : CommitGraphView} {fuel : Nat} :
    ∀ {cs : List String} {m m2 : SeedMapT},
      populateLoop G R view fuel cs m = some m2 → ∀ j : String,
        ((alookup m2 j).isSome ↔
          ((alookup m j).isSome ∨ (j ∈ cs ∧ isSeed G R view j = true))) := by
  intro cs
  induction cs with
  | nil =>
    intro m m2 h j
    simp only [populateLoop, Option.some.injEq] at h
    subst h
    simp
  | cons hd tl ih =>
    intro m m2 h j
    unfold populateLoop at h
    by_cases hseed : isSeed G R view hd = true
    · rw [if_pos hseed] at h
      rcases hf : findNearestAncestors G m fuel (lookupG G hd) 1 with _ | ⟨ancestors, distance⟩
      · rw [hf] at h; cases h
      · rw [hf] at h
        have hih := ih h j
        rw [hih, alookup_ainsert_isSome]
        simp only [Bool.or_eq_true, decide_eq_true_eq, List.mem_cons]
        constructor
        · rintro ((hm | rfl) | ⟨hmem, hs⟩)
          · exact Or.inl hm
          · exact Or.inr ⟨Or.inl rfl, hseed⟩
          · exact Or.inr ⟨Or.inr hmem, hs⟩
        · rintro (hm | ⟨rfl | hmem, hs⟩)
          · exact Or.inl (Or.inl hm)
          · exact Or.inl (Or.inr rfl)
          · exact Or.inr ⟨hmem, hs⟩
    · rw [if_neg hseed] at h
      have hih := ih h j
      rw [hih]
      simp only [List.mem_cons]
      constructor
      · rintro (hm | ⟨hmem, hs⟩)
        · exact Or.inl hm
        · exact Or.inr ⟨Or.inr hmem, hs⟩
      · rintro (hm | ⟨rfl | hmem, hs⟩)
        · exact Or.inl hm
        · exact absurd hs hseed
        · exact Or.inr ⟨hmem, hs⟩

theorem findNearestAncestors_isSome {G : GraphT} {u : SeedMapT} {μ : String → Nat}
    (hdec : ∀ c p, p ∈ lookupG G c → μ p < μ c) :
    ∀ {fuel : Nat} {ancs : List String} {d : Nat},
      (∀ a ∈ ancs, μ a + 1 < fuel) → 0 < fuel →
      (findNearestAncestors G u fuel ancs d).isSome = true := by
  intro fuel
  induction fuel with
  | zero => intro ancs d _ h0; omega
  | succ n ih =>
    intro ancs d hμ _
    rcases ancs with _ | ⟨a, rest⟩
    · simp [findNearestAncestors]
    · rcases rest with _ | ⟨b, rest2⟩
      · unfold findNearestAncestors
        by_cases hp : (alookup u a).isSome
        · simp [hp]
        · simp only [hp, Bool.false_eq_true, if_false]
          have hμa := hμ a (by simp)
          apply ih
          · intro p hpmem
            have := hdec a p hpmem
            omega
          · omega
      · simp [findNearestAncestors]

theorem populateLoop_isSome {G R : GraphT} {view : CommitGraphView} {μ : String → Nat}
    {fuel : Nat} (hdec : ∀ c p, p ∈ lookupG G c → μ p < μ c) (h0 : 0 < fuel) :
    ∀ {cs : List String} {m : SeedMapT},
      (∀ c ∈ cs, ∀ a ∈ lookupG G c, μ a + 1 < fuel) →
      (populateLoop G R view fuel cs m).isSome = true := by
  intro cs
  induction cs with
  | nil => intro m _; simp [populateLoop]
  | cons hd tl ih =>
    intro m hc
    unfold populateLoop
    by_cases hseed : isSeed G R view hd = true
    · rw [if_pos hseed]
      have hsome := findNearestAncestors_isSome hdec
        (hc hd (List.mem_cons_self _ _)) h0 (u := m) (d := 1)
      rcases hf : findNearestAncestors G m fuel (lookupG G hd) 1 with _ | ⟨ancestors, distance⟩
      · rw [hf] at hsome; simp at hsome
      · exact ih fun c hmem a ha => hc c (List.mem_cons_of_mem _ hmem) a ha
    · rw [if_neg hseed]
      exact ih fun c hmem a ha => hc c (List.mem_cons_of_mem _ hmem) a ha

/-! ### Validity consequences -/

theorem parent_mem_order {graph : GraphT} {order : List String} {view : CommitGraphView}
    (hv : ValidInput graph order view) {c p : String} (hp : p ∈ lookupG graph c) :
    p ∈ order := by
  have hne : lookupG graph c ≠ [] := fun h => by rw [h] at hp; cases hp
  have halo := alookup_of_lookupG_ne_nil hne
  have hmem := mem_of_alookup_eq_some halo
  exact hv.keysSubOrder p (hv.parentsClosed _ hmem p hp)

theorem child_edge {graph : GraphT} {c p : String}
    (hp : p ∈ lookupG (reverseGraph graph) c) :
    ∃ ps, (p, ps) ∈ graph ∧ c ∈ ps :=
  (mem_lookupG_reverseGraph graph p c).mp hp

theorem child_mem_order {graph : GraphT} {order : List String} {view : CommitGraphView}
    (hv : ValidInput graph order view) {c p : String}
    (hp : p ∈ lookupG (reverseGraph graph) c) : p ∈ order := by
  obtain ⟨ps, hmem, -⟩ := child_edge hp
  exact hv.keysSubOrder p (List.mem_map.mpr ⟨(p, ps), hmem, rfl⟩)

theorem fwd_dec {graph : GraphT} {order : List String} {view : CommitGraphView}
    (hv : ValidInput graph order view) :
    ∀ c p, p ∈ lookupG graph c → order.indexOf p < order.indexOf c := by
  intro c p hp
  have hne : lookupG graph c ≠ [] := fun h => by rw [h] at hp; cases hp
  have halo := alookup_of_lookupG_ne_nil hne
  exact hv.topo (c, lookupG graph c) (mem_of_alookup_eq_some halo) p hp

theorem bwd_dec {graph : GraphT} {order : List String} {view : CommitGraphView}
    (hv : ValidInput graph order view) :
    ∀ c p, p ∈ lookupG (reverseGraph graph) c →
      order.length - order.indexOf p < order.length - order.indexOf c := by
  intro c p hp
  obtain ⟨ps, hmem, hcp⟩ := child_edge hp
  have h1 : order.indexOf c < order.indexOf p := by simpa using hv.topo (p, ps) hmem c hcp
  have h2 : order.indexOf p ≤ order.length := List.indexOf_le_length
  omega

theorem populate_total_fwd {graph : GraphT} {order : List String} {view : CommitGraphView}
    (hv : ValidInput graph order view) :
    (populateUploadsByTraversal graph (reverseGraph graph) order view false
      (order.length + 1)).isSome = true := by
  unfold populateUploadsByTraversal
  simp only [Bool.false_eq_true, if_false]
  apply populateLoop_isSome (μ := fun c => order.indexOf c) (fwd_dec hv) (by omega)
  intro c _ a ha
  have := List.indexOf_lt_length.mpr (parent_mem_order hv ha)
  omega

theorem populate_total_bwd {graph : GraphT} {order : List String} {view : CommitGraphView}
    (hv : ValidInput graph order view) :
    (populateUploadsByTraversal (reverseGraph graph) graph order view true
      (order.length + 1)).isSome = true := by
  unfold populateUploadsByTraversal
  simp only [if_true]
  apply populateLoop_isSome (μ := fun c => order.length - order.indexOf c) (bwd_dec hv) (by omega)
  intro c _ a ha
  obtain ⟨ps, hmem, hcp⟩ := child_edge ha
  have h1 : order.indexOf c < order.indexOf a := by simpa using hv.topo (a, ps) hmem c hcp
  have h2 := List.indexOf_lt_length.mpr (child_mem_order hv ha)
  omega

/-- C2 (amended): for every valid input, both seed passes complete, their key
sets lie within the commits of the order, and a commit of the graph has an
entry in the ancestor (resp. descendant) seed map iff it satisfies the five
seed conditions with the first condition read as the code tests it: the commit
has an entry in `view.Meta` (for views built through `add`, equivalently it
anchors at least one upload). -/
theorem seed_maps_characterization (graph : GraphT) (order : List String)
    (view : CommitGraphView) (hv : ValidInput graph order view) :
    ∃ mA mD,
      populateUploadsByTraversal graph (reverseGraph graph) order view false
        (order.length + 1) = some mA ∧
      populateUploadsByTraversal (reverseGraph graph) graph order view true
        (order.length + 1) = some mD ∧
      (∀ c : String, (alookup mA c).isSome → c ∈ order) ∧
      (∀ c : String, (alookup mD c).isSome → c ∈ order) ∧
      ∀ c ∈ order,
        ((alookup mA c).isSome ↔ SeedConditionPresence graph (reverseGraph graph) view c) ∧
        ((alookup mD c).isSome ↔ SeedConditionPresence graph (reverseGraph graph) view c) := by
  have htf := populate_total_fwd hv
  have htb := populate_total_bwd hv
  rcases hfa : populateUploadsByTraversal graph (reverseGraph graph) order view false
      (order.length + 1) with _ | mA
  · rw [hfa] at htf; simp at htf
  rcases hfd : populateUploadsByTraversal (reverseGraph graph) graph order view true
      (order.length + 1) with _ | mD
  · rw [hfd] at htb; simp at htb
  have hloopA : populateLoop graph (reverseGraph graph) view (order.length + 1) order []
      = some mA := by simpa [populateUploadsByTraversal] using hfa
  have hloopD : populateLoop (reverseGraph graph) graph view (order.length + 1) order.reverse []
      = some mD := by simpa [populateUploadsByTraversal] using hfd
  have hkA : ∀ j, ((alookup mA j).isSome ↔
      (j ∈ order ∧ isSeed graph (reverseGraph graph) view j = true)) := by
    intro j
    have hj := populateLoop_keys hloopA j
    simpa [alookup] using hj
  have hkD : ∀ j, ((alookup mD j).isSome ↔
      (j ∈ order ∧ isSeed (reverseGraph graph) graph view j = true)) := by
    intro j
    have hj := populateLoop_keys hloopD j
    simpa [alookup, List.mem_reverse] using hj
  refine ⟨mA, mD, rfl, rfl, ?_, ?_, ?_⟩
  · intro c hc
    exact ((hkA c).mp hc).1
  · intro c hc
    exact ((hkD c).mp hc).1
  · intro c hc
    constructor
    · rw [hkA c, isSeed_fwd_iff graph view hv.keysNodup c]
      simp [hc]
    · rw [hkD c, isSeed_bwd_iff graph view hv.keysNodup c]
      simp [hc]



/-- Witness for `seed_maps_characterization` at the `cgB` input: its validity is
decidable and the characterisation is realised there. -/
theorem seed_maps_characterization_witness :
    ValidInput cgB ordB viewB ∧
    (∃ mA mD,
      populateUploadsByTraversal cgB (reverseGraph cgB) ordB viewB false
        (ordB.length + 1) = some mA ∧
      populateUploadsByTraversal (reverseGraph cgB) cgB ordB viewB true
        (ordB.length + 1) = some mD ∧
      (∀ c : String, (alookup mA c).isSome → c ∈ ordB) ∧
      (∀ c : String, (alookup mD c).isSome → c ∈ ordB) ∧
      ∀ c ∈ ordB,
        ((alookup mA c).isSome ↔ SeedConditionPresence cgB (reverseGraph cgB) viewB c) ∧
        ((alookup mD c).isSome ↔ SeedConditionPresence cgB (reverseGraph cgB) viewB c)) :=
  ⟨⟨by decide, by decide, by decide, by decide, by decide, by decide, by decide, by decide,
      by decide, by decide⟩,
    seed_maps_characterization cgB ordB viewB
      ⟨by decide, by decide, by decide, by decide, by decide, by decide, by decide, by decide,
        by decide, by decide⟩⟩

/-- C2, counterexample to the claim as stated: on the valid single-commit input
whose view carries an entry with an *empty* upload list for `c` (the spec's
data model allows an empty `meta` list), the ancestor pass records `c` as a
seed, yet `c` satisfies none of the five conditions of §4.3 as stated — in
particular it anchors no upload. -/
theorem seed_condition_counterexample :
    ValidInput cgOne ordOne viewOneEmpty ∧
    (∃ mA, populateUploadsByTraversal cgOne (reverseGraph cgOne) ordOne viewOneEmpty false
        (ordOne.length + 1) = some mA ∧ (alookup mA "c").isSome) ∧
    ¬ SeedCondition cgOne (reverseGraph cgOne) viewOneEmpty "c" := by
  refine ⟨⟨by decide, by decide, by decide, by decide, by decide, by decide, by decide,
      by decide, by decide, by decide⟩,
    ⟨[("c", [])], by rfl, by decide⟩, ?_⟩
  rintro (h1 | h2 | h3 | ⟨p, hp, -⟩ | ⟨ch, hch, -⟩)
  · exact h1 rfl
  · exact absurd h2 (by decide)
  · exact absurd h3 (by decide)
  · have h0 : lookupG cgOne "c" = [] := rfl
    rw [h0] at hp
    exact List.noConfusion hp
  · have h0 : lookupG (reverseGraph cgOne) "c" = [] := rfl
    rw [h0] at hch
    exact List.noConfusion hch

theorem traverseForCommitAux_isSome {G : GraphT} {u : SeedMapT} {μ : String → Nat}
    (hdec : ∀ c p, p ∈ lookupG G c → μ p < μ c) :
    ∀ {fuel : Nat} {c : String} {d : Nat}, μ c < fuel →
      (traverseForCommitAux G u fuel c d).isSome = true := by
  intro fuel
  induction fuel with
  | zero => intro c d h; omega
  | succ n ih =>
    intro c d h
    unfold traverseForCommitAux
    by_cases hp : (alookup u c).isSome
    · simp [hp]
    · simp only [hp, Bool.false_eq_true, if_false]
      rcases hg : lookupG G c with _ | ⟨p, ps⟩
      · simp
      · apply ih
        have : p ∈ lookupG G c := by rw [hg]; simp
        have := hdec c p this
        omega

theorem traverseForCommitAux_false_shape {G : GraphT} {u : SeedMapT} :
    ∀ {fuel : Nat} {c : String} {d : Nat} {x : String} {dist : Nat},
      traverseForCommitAux G u fuel c d = some (x, dist, false) → x = "" ∧ dist = 0 := by
  intro fuel
  induction fuel with
  | zero => intro c d x dist h; simp [traverseForCommitAux] at h
  | succ n ih =>
    intro c d x dist h
    unfold traverseForCommitAux at h
    by_cases hp : (alookup u c).isSome
    · simp only [hp, if_true, Option.some.injEq, Prod.mk.injEq] at h
      exact absurd h.2.2 (by simp)
    · simp only [hp, Bool.false_eq_true, if_false] at h
      rcases hg : lookupG G c with _ | ⟨p, ps⟩
      · rw [hg] at h
        simp only [Option.some.injEq, Prod.mk.injEq] at h
        exact ⟨h.1.symm, h.2.1.symm⟩
      · rw [hg] at h
        exact ih h

theorem NewGraph_populate {graph : GraphT} {order : List String} {view : CommitGraphView}
    {g : GraphData} (hg : NewGraph graph order view = some g) :
    populateUploadsByTraversal graph (reverseGraph graph) order view false
        (order.length + 1) = some g.ancestorUploads ∧
      populateUploadsByTraversal (reverseGraph graph) graph order view true
        (order.length + 1) = some g.descendantUploads := by
  unfold NewGraph at hg
  simp only [] at hg
  rcases h1 : populateUploadsByTraversal graph (reverseGraph graph) order view false
      (order.length + 1) with _ | mA
  · rw [h1] at hg; simp at hg
  rcases h2 : populateUploadsByTraversal (reverseGraph graph) graph order view true
      (order.length + 1) with _ | mD
  · rw [h1, h2] at hg; simp at hg
  rw [h1, h2] at hg
  simp only [Option.some.injEq] at hg
  subst hg
  exact ⟨rfl, rfl⟩

/-- C10: on a valid input (and any commit string whatsoever, present in the
graph or not) `UploadsVisibleAtCommit` returns a list — the embedded walks
always complete within the fuel `NewGraph` supplies — and whenever a traversal
reports not-found (it reached a parentless commit before any seed), that side
contributes the empty map and distance 0 to the combination. -/
theorem uploadsVisibleAtCommit_total (graph : GraphT) (order : List String)
    (view : CommitGraphView) (hv : ValidInput graph order view) :
    ∃ g, NewGraph graph order view = some g ∧
      ∀ commit : String,
        (∃ us, UploadsVisibleAtCommit g commit = some us) ∧
        (∀ ac ad f, traverseForCommit g.fuel g.graph g.ancestorUploads commit
            = some (ac, ad, f) → f = false →
          lookupSeedD g.ancestorUploads ac = [] ∧ ad = 0) ∧
        (∀ dc dd f, traverseForCommit g.fuel g.reverseGraph g.descendantUploads commit
            = some (dc, dd, f) → f = false →
          lookupSeedD g.descendantUploads dc = [] ∧ dd = 0) := by
  have htf := populate_total_fwd hv
  have htb := populate_total_bwd hv
  rcases hfa : populateUploadsByTraversal graph (reverseGraph graph) order view false
      (order.length + 1) with _ | mA
  · rw [hfa] at htf; simp at htf
  rcases hfd : populateUploadsByTraversal (reverseGraph graph) graph order view true
      (order.length + 1) with _ | mD
  · rw [hfd] at htb; simp at htb
  have hng : NewGraph graph order view = some
      ⟨graph, reverseGraph graph, sortStrings order, order.length + 1, mA, mD⟩ := by
    unfold NewGraph
    simp only []
    rw [hfa, hfd]
  refine ⟨_, hng, fun commit => ⟨?_, ?_, ?_⟩⟩
  · have h1 : (traverseForCommit (order.length + 1) graph mA commit).isSome = true := by
      apply traverseForCommitAux_isSome (μ := fun c => order.indexOf c) (fwd_dec hv)
      have := List.indexOf_le_length (a := commit) (l := order)
      omega
    have h2 : (traverseForCommit (order.length + 1) (reverseGraph graph) mD commit).isSome
        = true := by
      apply traverseForCommitAux_isSome (μ := fun c => order.length - order.indexOf c)
        (bwd_dec hv)
      omega
    rcases ht1 : traverseForCommit (order.length + 1) graph mA commit with _ | ⟨ac, ad, f1⟩
    · rw [ht1] at h1; simp at h1
    rcases ht2 : traverseForCommit (order.length + 1) (reverseGraph graph) mD commit
      with _ | ⟨dc, dd, f2⟩
    · rw [ht2] at h2; simp at h2
    refine ⟨combineVisibleUploadsForCommit (lookupSeedD mA ac) (lookupSeedD mD dc) ad dd, ?_⟩
    unfold UploadsVisibleAtCommit traverseForUploads
    simp only []
    rw [ht1, ht2]
    rfl
  · intro ac ad f ht hf
    subst hf
    obtain ⟨hac, had⟩ := traverseForCommitAux_false_shape ht
    subst hac
    subst had
    refine ⟨?_, rfl⟩
    have hloopA : populateLoop graph (reverseGraph graph) view (order.length + 1) order []
        = some mA := by simpa [populateUploadsByTraversal] using hfa
    have hk := populateLoop_keys hloopA ""
    unfold lookupSeedD
    rcases hlook : alookup mA "" with _ | v
    · rfl
    · rw [hlook] at hk
      simp only [Option.isSome_some, true_iff] at hk
      rcases hk with hk | hk
      · simp [alookup] at hk
      · exact absurd hk.1 hv.noEmptyName
  · intro dc dd f ht hf
    subst hf
    obtain ⟨hdc, hdd⟩ := traverseForCommitAux_false_shape ht
    subst hdc
    subst hdd
    refine ⟨?_, rfl⟩
    have hloopD : populateLoop (reverseGraph graph) graph view (order.length + 1)
        order.reverse [] = some mD := by simpa [populateUploadsByTraversal] using hfd
    have hk := populateLoop_keys hloopD ""
    unfold lookupSeedD
    rcases hlook : alookup mD "" with _ | v
    · rfl
    · rw [hlook] at hk
      simp only [Option.isSome_some, true_iff] at hk
      rcases hk with hk | hk
      · simp [alookup] at hk
      · exact absurd (List.mem_reverse.mp hk.1) hv.noEmptyName

/-- Witness for `uploadsVisibleAtCommit_total` at the `cgB` input. -/
theorem uploadsVisibleAtCommit_total_witness :
    ValidInput cgB ordB viewB ∧
    (∃ g, NewGraph cgB ordB viewB = some g ∧
      ∀ commit : String,
        (∃ us, UploadsVisibleAtCommit g commit = some us) ∧
        (∀ ac ad f, traverseForCommit g.fuel g.graph g.ancestorUploads commit
            = some (ac, ad, f) → f = false →
          lookupSeedD g.ancestorUploads ac = [] ∧ ad = 0) ∧
        (∀ dc dd f, traverseForCommit g.fuel g.reverseGraph g.descendantUploads commit
            = some (dc, dd, f) → f = false →
          lookupSeedD g.descendantUploads dc = [] ∧ dd = 0)) :=
  ⟨⟨by decide, by decide, by decide, by decide, by decide, by decide, by decide, by decide,
      by decide, by decide⟩,
    uploadsVisibleAtCommit_total cgB ordB viewB
      ⟨by decide, by decide, by decide, by decide, by decide, by decide, by decide, by decide,
        by decide, by decide⟩⟩

/-! ### Per-token analysis of the combined list (claim C4) -/

theorem combineSpec_A_side_filter (view : CommitGraphView) (t : String) (D : TokenMapT)
    (dA dD : Nat) :
    ∀ (A : TokenMapT),
      (∀ p ∈ A, p.1 = lookupTokens view p.2.UploadID) →
      (∀ p ∈ D, p.1 = lookupTokens view p.2.UploadID) →
      (∀ p ∈ A, p.2.Flags + dA < 2 ^ 29) →
      (∀ p ∈ D, p.2.Flags + dD < 2 ^ 29) →
      (A.map Prod.fst).Nodup →
      ((A.flatMap fun p =>
          let uA : UploadMeta := ⟨p.2.UploadID, p.2.Flags + dA + FlagAncestorVisible⟩
          match alookup D p.1 with
          | some q =>
            if q.Flags + dD < p.2.Flags + dA ∨
                (q.Flags + dD = p.2.Flags + dA ∧ q.UploadID < p.2.UploadID) then
              [⟨q.UploadID, q.Flags + dD⟩,
               ⟨p.2.UploadID, p.2.Flags + dA + FlagAncestorVisible + FlagOverwritten⟩]
            else [uA]
          | none => [uA]).filter
            fun u => decide (lookupTokens view u.UploadID = t) && !(overwrittenOf u))
        = match alookup A t with
          | some uA =>
            match alookup D t with
            | some uD =>
              if uD.Flags + dD < uA.Flags + dA ∨
                  (uD.Flags + dD = uA.Flags + dA ∧ uD.UploadID < uA.UploadID) then
                [⟨uD.UploadID, uD.Flags + dD⟩]
              else [⟨uA.UploadID, uA.Flags + dA + FlagAncestorVisible⟩]
            | none => [⟨uA.UploadID, uA.Flags + dA + FlagAncestorVisible⟩]
          | none => [] := by
  intro A
  induction A with
  | nil => intro _ _ _ _ _; simp [alookup]
  | cons hd tl ih =>
    intro hCA hCD hFA hFD hNA
    obtain ⟨t2, uA⟩ := hd
    have hcons : t2 = lookupTokens view uA.UploadID := hCA (t2, uA) (List.mem_cons_self _ _)
    have hfA : uA.Flags + dA < 2 ^ 29 := hFA (t2, uA) (List.mem_cons_self _ _)
    simp only [List.map_cons, List.nodup_cons] at hNA
    have ihr := ih (fun p hp => hCA p (List.mem_cons_of_mem _ hp)) hCD
      (fun p hp => hFA p (List.mem_cons_of_mem _ hp)) hFD hNA.2
    simp only [List.flatMap_cons, List.filter_append]
    rw [ihr]
    by_cases ht2 : t2 = t
    · subst ht2
      have hrest : alookup tl t2 = none := by
        rcases hlk : alookup tl t2 with _ | v
        · rfl
        · exact absurd (List.mem_map.mpr ⟨(t2, v), mem_of_alookup_eq_some hlk, rfl⟩) hNA.1
      have hhd : alookup ((t2, uA) :: tl) t2 = some uA := by simp [alookup]
      simp only [hhd, hrest]
      rcases hD : alookup D t2 with _ | uD
      · simp only [hD]
        have hpred : (decide (lookupTokens view uA.UploadID = t2)
            && !(overwrittenOf ⟨uA.UploadID, uA.Flags + dA + FlagAncestorVisible⟩)) = true := by
          rw [overwrittenOf_av hfA, ← hcons]
          simp
        simp [List.filter_cons, hpred]
      · have hmemD := mem_of_alookup_eq_some hD
        have hfD : uD.Flags + dD < 2 ^ 29 := hFD (t2, uD) hmemD
        simp only [hD]
        by_cases hwin : uD.Flags + dD < uA.Flags + dA ∨
            (uD.Flags + dD = uA.Flags + dA ∧ uD.UploadID < uA.UploadID)
        · simp only [if_pos hwin]
          have hpredD : (decide (lookupTokens view uD.UploadID = t2)
              && !(overwrittenOf ⟨uD.UploadID, uD.Flags + dD⟩)) = true := by
            rw [overwrittenOf_clean hfD, ← hCD (t2, uD) hmemD]
            simp
          have hpredOv : (decide (lookupTokens view uA.UploadID = t2)
              && !(overwrittenOf ⟨uA.UploadID,
                uA.Flags + dA + FlagAncestorVisible + FlagOverwritten⟩)) = false := by
            rw [overwrittenOf_av_ov hfA]
            simp
          simp [List.filter_cons, hpredD, hpredOv]
        · simp only [if_neg hwin]
          have hpred : (decide (lookupTokens view uA.UploadID = t2)
              && !(overwrittenOf ⟨uA.UploadID, uA.Flags + dA + FlagAncestorVisible⟩)) = true := by
            rw [overwrittenOf_av hfA, ← hcons]
            simp
          simp [List.filter_cons, hpred]
    · have hhd : alookup ((t2, uA) :: tl) t = alookup tl t := by simp [alookup, ht2]
      simp only [hhd]
      have hTokA : decide (lookupTokens view uA.UploadID = t) = false := by
        simp only [decide_eq_false_iff_not]
        rw [← hcons]
        exact ht2
      rcases hD : alookup D t2 with _ | uD
      · simp only [hD]
        simp [List.filter_cons, hTokA]
      · have hTokD : decide (lookupTokens view uD.UploadID = t) = false := by
          simp only [decide_eq_false_iff_not]
          rw [← hCD (t2, uD) (mem_of_alookup_eq_some hD)]
          exact ht2
        simp only [hD]
        by_cases hwin : uD.Flags + dD < uA.Flags + dA ∨
            (uD.Flags + dD = uA.Flags + dA ∧ uD.UploadID < uA.UploadID)
        · simp only [if_pos hwin]
          simp [List.filter_cons, hTokA, hTokD]
        · simp only [if_neg hwin]
          simp [List.filter_cons, hTokA]



theorem combineSpec_D_side_filter (view : CommitGraphView) (t : String) (A : TokenMapT)
    (dD : Nat) :
    ∀ (D : TokenMapT),
      (∀ p ∈ D, p.1 = lookupTokens view p.2.UploadID) →
      (∀ p ∈ D, p.2.Flags + dD < 2 ^ 29) →
      (D.map Prod.fst).Nodup →
      ((D.flatMap fun p =>
          match alookup A p.1 with
          | some _ => []
          | none => [(⟨p.2.UploadID, p.2.Flags + dD⟩ : UploadMeta)]).filter
            fun u => decide (lookupTokens view u.UploadID = t) && !(overwrittenOf u))
        = match alookup A t, alookup D t with
          | none, some uD => [(⟨uD.UploadID, uD.Flags + dD⟩ : UploadMeta)]
          | _, _ => [] := by
  intro D
  induction D with
  | nil =>
    intro _ _ _
    rcases alookup A t <;> simp [alookup]
  | cons hd tl ih =>
    intro hCD hFD hND
    obtain ⟨t2, uD⟩ := hd
    have hcons : t2 = lookupTokens view uD.UploadID := hCD (t2, uD) (List.mem_cons_self _ _)
    have hfD : uD.Flags + dD < 2 ^ 29 := hFD (t2, uD) (List.mem_cons_self _ _)
    simp only [List.map_cons, List.nodup_cons] at hND
    have ihr := ih (fun p hp => hCD p (List.mem_cons_of_mem _ hp))
      (fun p hp => hFD p (List.mem_cons_of_mem _ hp)) hND.2
    simp only [List.flatMap_cons, List.filter_append]
    rw [ihr]
    by_cases ht2 : t2 = t
    · subst ht2
      have hrest : alookup tl t2 = none := by
        rcases hlk : alookup tl t2 with _ | v
        · rfl
        · exact absurd (List.mem_map.mpr ⟨(t2, v), mem_of_alookup_eq_some hlk, rfl⟩) hND.1
      have hhd : alookup ((t2, uD) :: tl) t2 = some uD := by simp [alookup]
      simp only [hhd, hrest]
      rcases hA : alookup A t2 with _ | uA
      · simp only [hA]
        have hpred : (decide (lookupTokens view uD.UploadID = t2)
            && !(overwrittenOf ⟨uD.UploadID, uD.Flags + dD⟩)) = true := by
          rw [overwrittenOf_clean hfD, ← hcons]
          simp
        simp [List.filter_cons, hpred]
      · simp only [hA]
        simp
    · have hhd : alookup ((t2, uD) :: tl) t = alookup tl t := by simp [alookup, ht2]
      simp only [hhd]
      rcases hA : alookup A t2 with _ | uA
      · simp only [hA]
        have hTokD : decide (lookupTokens view uD.UploadID = t) = false := by
          simp only [decide_eq_false_iff_not]
          rw [← hcons]
          exact ht2
        simp [List.filter_cons, hTokD]
      · simp only [hA]
        simp



/-- Per token, the emitted entries that are not `OVERWRITTEN`: exactly the
winner between the (shifted) ancestor and descendant candidates for that token,
when either exists. -/
theorem combineSpec_filter (view : CommitGraphView) (t : String) (A D : TokenMapT) (dA dD : Nat)
    (hCA : ∀ p ∈ A, p.1 = lookupTokens view p.2.UploadID)
    (hCD : ∀ p ∈ D, p.1 = lookupTokens view p.2.UploadID)
    (hFA : ∀ p ∈ A, p.2.Flags + dA < 2 ^ 29)
    (hFD : ∀ p ∈ D, p.2.Flags + dD < 2 ^ 29)
    (hNA : (A.map Prod.fst).Nodup) (hND : (D.map Prod.fst).Nodup) :
    ((combineSpec A D dA dD).filter
        fun u => decide (lookupTokens view u.UploadID = t) && !(overwrittenOf u))
      = match alookup A t, alookup D t with
        | some uA, some uD =>
          if uD.Flags + dD < uA.Flags + dA ∨
              (uD.Flags + dD = uA.Flags + dA ∧ uD.UploadID < uA.UploadID) then
            [⟨uD.UploadID, uD.Flags + dD⟩]
          else [⟨uA.UploadID, uA.Flags + dA + FlagAncestorVisible⟩]
        | some uA, none => [⟨uA.UploadID, uA.Flags + dA + FlagAncestorVisible⟩]
        | none, some uD => [⟨uD.UploadID, uD.Flags + dD⟩]
        | none, none => [] := by
  unfold combineSpec
  rw [List.filter_append]
  rw [combineSpec_A_side_filter view t D dA dD A hCA hCD hFA hFD hNA,
    combineSpec_D_side_filter view t A dD D hCD hFD hND]
  rcases alookup A t with _ | uA <;> rcases alookup D t with _ | uD <;> simp

/-! ### Seed-map invariants: token consistency and distance bounds -/

theorem populate_base_OK {view : CommitGraphView} {bound : Nat} :
    ∀ (l : List UploadMeta) (m : TokenMapT),
      (m.map Prod.fst).Nodup →
      (∀ q ∈ m, q.1 = lookupTokens view q.2.UploadID ∧ q.2.Flags ≤ bound) →
      (∀ u ∈ l, u.Flags = 0) →
      ((l.foldl (fun m upload => ainsert m (lookupTokens view upload.UploadID) upload) m).map
          Prod.fst).Nodup ∧
      ∀ q ∈ l.foldl (fun m upload => ainsert m (lookupTokens view upload.UploadID) upload) m,
        q.1 = lookupTokens view q.2.UploadID ∧ q.2.Flags ≤ bound := by
  intro l
  induction l with
  | nil => intro m h1 h2 _; exact ⟨h1, h2⟩
  | cons hd tl ih =>
    intro m h1 h2 h3
    simp only [List.foldl_cons]
    apply ih
    · exact nodup_keys_ainsert _ _ h1
    · intro q hq
      rcases mem_ainsert hq with rfl | hm
      · exact ⟨rfl, by rw [h3 hd (List.mem_cons_self _ _)]; omega⟩
      · exact h2 q hm
    · exact fun u hu => h3 u (List.mem_cons_of_mem _ hu)

theorem populate_inner_OK {view : CommitGraphView} {bound distance : Nat} (h32 : bound < 2 ^ 32) :
    ∀ (entries : List (String × UploadMeta)) (m : TokenMapT),
      (m.map Prod.fst).Nodup →
      (∀ q ∈ m, q.1 = lookupTokens view q.2.UploadID ∧ q.2.Flags ≤ bound) →
      (∀ q ∈ entries, q.2.Flags + distance ≤ bound) →
      (((entries.foldl (fun m p =>
          let token := lookupTokens view p.2.UploadID
          let upload : UploadMeta := ⟨p.2.UploadID, (p.2.Flags + distance) % U32⟩
          match alookup m token with
          | none => ainsert m token upload
          | some currentUpload =>
            if replaces upload currentUpload then ainsert m token upload else m) m).map
            Prod.fst).Nodup) ∧
      ∀ q ∈ entries.foldl (fun m p =>
          let token := lookupTokens view p.2.UploadID
          let upload : UploadMeta := ⟨p.2.UploadID, (p.2.Flags + distance) % U32⟩
          match alookup m token with
          | none => ainsert m token upload
          | some currentUpload =>
            if replaces upload currentUpload then ainsert m token upload else m) m,
        q.1 = lookupTokens view q.2.UploadID ∧ q.2.Flags ≤ bound := by
  intro entries
  induction entries with
  | nil => intro m h1 h2 _; exact ⟨h1, h2⟩
  | cons hd tl ih =>
    intro m h1 h2 h3
    simp only [List.foldl_cons]
    have hhd := h3 hd (List.mem_cons_self _ _)
    have hmod : (hd.2.Flags + distance) % U32 = hd.2.Flags + distance := by
      unfold U32 at *
      omega
    have hstep : ∀ m2 : TokenMapT, (m2.map Prod.fst).Nodup →
        (∀ q ∈ m2, q.1 = lookupTokens view q.2.UploadID ∧ q.2.Flags ≤ bound) →
        (((match alookup m2 (lookupTokens view hd.2.UploadID) with
          | none => ainsert m2 (lookupTokens view hd.2.UploadID)
              (⟨hd.2.UploadID, (hd.2.Flags + distance) % U32⟩ : UploadMeta)
          | some currentUpload =>
            if replaces ⟨hd.2.UploadID, (hd.2.Flags + distance) % U32⟩ currentUpload then
              ainsert m2 (lookupTokens view hd.2.UploadID)
                ⟨hd.2.UploadID, (hd.2.Flags + distance) % U32⟩
            else m2).map Prod.fst).Nodup) ∧
        ∀ q ∈ (match alookup m2 (lookupTokens view hd.2.UploadID) with
          | none => ainsert m2 (lookupTokens view hd.2.UploadID)
              (⟨hd.2.UploadID, (hd.2.Flags + distance) % U32⟩ : UploadMeta)
          | some currentUpload =>
            if replaces ⟨hd.2.UploadID, (hd.2.Flags + distance) % U32⟩ currentUpload then
              ainsert m2 (lookupTokens view hd.2.UploadID)
                ⟨hd.2.UploadID, (hd.2.Flags + distance) % U32⟩
            else m2),
          q.1 = lookupTokens view q.2.UploadID ∧ q.2.Flags ≤ bound := by
      intro m2 hm1 hm2
      have hins : (((ainsert m2 (lookupTokens view hd.2.UploadID)
            (⟨hd.2.UploadID, (hd.2.Flags + distance) % U32⟩ : UploadMeta)).map Prod.fst).Nodup) ∧
          ∀ q ∈ ainsert m2 (lookupTokens view hd.2.UploadID)
              (⟨hd.2.UploadID, (hd.2.Flags + distance) % U32⟩ : UploadMeta),
            q.1 = lookupTokens view q.2.UploadID ∧ q.2.Flags ≤ bound := by
        refine ⟨nodup_keys_ainsert _ _ hm1, fun q hq => ?_⟩
        rcases mem_ainsert hq with rfl | hm
        · refine ⟨rfl, ?_⟩
          simp only [hmod]
          omega
        · exact hm2 q hm
      rcases alookup m2 (lookupTokens view hd.2.UploadID) with _ | currentUpload
      · simp only []
        exact hins
      · simp only []
        by_cases hrep : replaces ⟨hd.2.UploadID, (hd.2.Flags + distance) % U32⟩ currentUpload = true
        · simp only [if_pos hrep]
          exact hins
        · simp only [if_neg hrep]
          exact ⟨hm1, hm2⟩
    have hs := hstep m h1 h2
    exact ih _ hs.1 hs.2 fun q hq => h3 q (List.mem_cons_of_mem _ hq)

theorem findNearestAncestors_bound {G : GraphT} {u : SeedMapT} {μ : String → Nat}
    (hdec : ∀ c p, p ∈ lookupG G c → μ p < μ c) :
    ∀ {fuel : Nat} {ancs : List String} {d : Nat} {res : List String × Nat},
      findNearestAncestors G u fuel ancs d = some res →
      ∀ {bound : Nat}, (∀ a ∈ ancs, μ a + d ≤ bound) → ∀ a ∈ res.1, μ a + res.2 ≤ bound := by
  intro fuel
  induction fuel with
  | zero => intro ancs d res h; simp [findNearestAncestors] at h
  | succ n ih =>
    intro ancs d res h bound hb a ha
    rcases ancs with _ | ⟨x, rest⟩
    · simp only [findNearestAncestors, Option.some.injEq] at h
      subst h
      simp at ha
    · rcases rest with _ | ⟨y, rest2⟩
      · unfold findNearestAncestors at h
        by_cases hp : (alookup u x).isSome
        · simp only [hp, if_true, Option.some.injEq] at h
          subst h
          simp only [List.mem_singleton] at ha
          subst ha
          exact hb a (by simp)
        · simp only [hp, Bool.false_eq_true, if_false] at h
          refine ih h ?_ a ha
          intro z hz
          have hxz := hdec x z hz
          have hx := hb x (by simp)
          omega
      · simp only [findNearestAncestors, Option.some.injEq] at h
        subst h
        exact hb a ha

theorem populateUploadsForCommit_OK {view : CommitGraphView} {uploads : SeedMapT}
    {μ : String → Nat}
    (hOK : ∀ e ∈ uploads, (e.2.map Prod.fst).Nodup ∧
      ∀ q ∈ e.2, q.1 = lookupTokens view q.2.UploadID ∧ q.2.Flags ≤ μ e.1)
    {ancestors : List String} {distance : Nat} {commit : String}
    (hfr : ∀ a ∈ ancestors, μ a + distance ≤ μ commit)
    (hmeta : ∀ u ∈ lookupMeta view commit, u.Flags = 0)
    (h32 : μ commit < 2 ^ 32) :
    ((populateUploadsForCommit uploads ancestors distance view commit).map Prod.fst).Nodup ∧
    ∀ q ∈ populateUploadsForCommit uploads ancestors distance view commit,
      q.1 = lookupTokens view q.2.UploadID ∧ q.2.Flags ≤ μ commit := by
  unfold populateUploadsForCommit
  simp only []
  have hbase := @populate_base_OK view (μ commit) (lookupMeta view commit) []
    (by simp) (by simp) hmeta
  generalize hB : (lookupMeta view commit).foldl
    (fun m upload => ainsert m (lookupTokens view upload.UploadID) upload) [] = base at hbase
  clear hB
  induction ancestors generalizing base with
  | nil => exact hbase
  | cons hd tl ih =>
    simp only [List.foldl_cons]
    apply ih
    · intro a ha
      exact hfr a (List.mem_cons_of_mem _ ha)
    · rcases hlk : alookup uploads hd with _ | tm
      · simpa [lookupSeedD, hlk] using hbase
      · have he := hOK (hd, tm) (mem_of_alookup_eq_some hlk)
        have hfrhd := hfr hd (List.mem_cons_self _ _)
        have hentries : ∀ q ∈ tm, q.2.Flags + distance ≤ μ commit := by
          intro q hq
          have hb2 := (he.2 q hq).2
          simp only [] at hb2
          omega
        have hres := @populate_inner_OK view (μ commit) distance h32 tm base
          hbase.1 hbase.2 hentries
        simpa [lookupSeedD, hlk] using hres

theorem populateLoop_OK {G R : GraphT} {view : CommitGraphView} {fuel : Nat} {μ : String → Nat}
    (hdec : ∀ c p, p ∈ lookupG G c → μ p < μ c)
    (hmeta : ∀ e ∈ view.Meta, ∀ u ∈ e.2, u.Flags = 0)
    (h32 : ∀ x, μ x < 2 ^ 32) :
    ∀ {cs : List String} {m m2 : SeedMapT}, populateLoop G R view fuel cs m = some m2 →
      (∀ e ∈ m, (e.2.map Prod.fst).Nodup ∧
        ∀ q ∈ e.2, q.1 = lookupTokens view q.2.UploadID ∧ q.2.Flags ≤ μ e.1) →
      ∀ e ∈ m2, (e.2.map Prod.fst).Nodup ∧
        ∀ q ∈ e.2, q.1 = lookupTokens view q.2.UploadID ∧ q.2.Flags ≤ μ e.1 := by
  intro cs
  induction cs with
  | nil =>
    intro m m2 h hm
    simp only [populateLoop, Option.some.injEq] at h
    subst h
    exact hm
  | cons hd tl ih =>
    intro m m2 h hm
    unfold populateLoop at h
    by_cases hseed : isSeed G R view hd = true
    · rw [if_pos hseed] at h
      rcases hf : findNearestAncestors G m fuel (lookupG G hd) 1 with _ | ⟨ancestors, distance⟩
      · rw [hf] at h; cases h
      · rw [hf] at h
        have hfrontier : ∀ a ∈ ancestors, μ a + distance ≤ μ hd := by
          have hinit : ∀ a ∈ lookupG G hd, μ a + 1 ≤ μ hd := by
            intro a ha
            have := hdec hd a ha
            omega
          exact findNearestAncestors_bound hdec hf hinit
        have hmetahd : ∀ u ∈ lookupMeta view hd, u.Flags = 0 := by
          unfold lookupMeta
          rcases hlk : alookup view.Meta hd with _ | l
          · simp
          · intro u hu
            exact hmeta (hd, l) (mem_of_alookup_eq_some hlk) u hu
        have hnew := populateUploadsForCommit_OK hm hfrontier hmetahd (h32 hd)
        refine ih h ?_
        intro e he
        rcases mem_ainsert he with rfl | hmem
        · exact hnew
        · exact hm e hmem
    · rw [if_neg hseed] at h
      exact ih h hm

theorem traverseForCommitAux_dist_le {G : GraphT} {u : SeedMapT} {μ : String → Nat}
    (hdec : ∀ c p, p ∈ lookupG G c → μ p < μ c) :
    ∀ {fuel : Nat} {c : String} {d : Nat} {x : String} {dist : Nat},
      traverseForCommitAux G u fuel c d = some (x, dist, true) → dist ≤ d + μ c := by
  intro fuel
  induction fuel with
  | zero => intro c d x dist h; simp [traverseForCommitAux] at h
  | succ n ih =>
    intro c d x dist h
    unfold traverseForCommitAux at h
    by_cases hp : (alookup u c).isSome
    · simp only [hp, if_true, Option.some.injEq, Prod.mk.injEq] at h
      omega
    · simp only [hp, Bool.false_eq_true, if_false] at h
      rcases hg : lookupG G c with _ | ⟨p, ps⟩
      · rw [hg] at h
        simp only [Option.some.injEq, Prod.mk.injEq] at h
        exact absurd h.2.2 (by simp)
      · rw [hg] at h
        have hrec := ih h
        have hpc : p ∈ lookupG G c := by rw [hg]; simp
        have := hdec c p hpc
        omega

theorem seedD_OK {m : SeedMapT} {view : CommitGraphView} {b : String → Nat}
    (hOK : ∀ e ∈ m, (e.2.map Prod.fst).Nodup ∧
      ∀ q ∈ e.2, q.1 = lookupTokens view q.2.UploadID ∧ q.2.Flags ≤ b e.1)
    (c : String) :
    ((lookupSeedD m c).map Prod.fst).Nodup ∧
    ∀ q ∈ lookupSeedD m c, q.1 = lookupTokens view q.2.UploadID ∧ q.2.Flags ≤ b c := by
  unfold lookupSeedD
  rcases hlk : alookup m c with _ | tm
  · simp
  · have h := hOK (c, tm) (mem_of_alookup_eq_some hlk)
    simpa using h

theorem NewGraph_seedmaps_OK {graph : GraphT} {order : List String} {view : CommitGraphView}
    {g : GraphData} (hv : ValidInput graph order view) (hlen : order.length < 2 ^ 32)
    (hg : NewGraph graph order view = some g) :
    (∀ e ∈ g.ancestorUploads, (e.2.map Prod.fst).Nodup ∧
      ∀ q ∈ e.2, q.1 = lookupTokens view q.2.UploadID ∧ q.2.Flags ≤ order.indexOf e.1) ∧
    ∀ e ∈ g.descendantUploads, (e.2.map Prod.fst).Nodup ∧
      ∀ q ∈ e.2, q.1 = lookupTokens view q.2.UploadID ∧
        q.2.Flags ≤ order.length - order.indexOf e.1 := by
  obtain ⟨hfa, hfd⟩ := NewGraph_populate hg
  have hloopA : populateLoop graph (reverseGraph graph) view (order.length + 1) order []
      = some g.ancestorUploads := by simpa [populateUploadsByTraversal] using hfa
  have hloopD : populateLoop (reverseGraph graph) graph view (order.length + 1) order.reverse []
      = some g.descendantUploads := by simpa [populateUploadsByTraversal] using hfd
  constructor
  · refine populateLoop_OK (μ := fun c => order.indexOf c) (fwd_dec hv) hv.metaFlagsZero
      ?_ hloopA (by simp)
    intro x
    have := List.indexOf_le_length (a := x) (l := order)
    simp only []
    omega
  · refine populateLoop_OK (μ := fun c => order.length - order.indexOf c) (bwd_dec hv)
      hv.metaFlagsZero ?_ hloopD (by simp)
    intro x
    simp only []
    omega

theorem combineSpec_mem_token (view : CommitGraphView) {A D : TokenMapT} {dA dD : Nat}
    (hCA : ∀ p ∈ A, p.1 = lookupTokens view p.2.UploadID)
    (hCD : ∀ p ∈ D, p.1 = lookupTokens view p.2.UploadID)
    (hNA : (A.map Prod.fst).Nodup) (hND : (D.map Prod.fst).Nodup)
    {v : UploadMeta} {t : String}
    (hvm : v ∈ combineSpec A D dA dD) (ht : lookupTokens view v.UploadID = t) :
    (∃ uA, alookup A t = some uA ∧
      (v = ⟨uA.UploadID, uA.Flags + dA + FlagAncestorVisible⟩ ∨
       v = ⟨uA.UploadID, uA.Flags + dA + FlagAncestorVisible + FlagOverwritten⟩)) ∨
    (∃ uD, alookup D t = some uD ∧ v = ⟨uD.UploadID, uD.Flags + dD⟩) := by
  unfold combineSpec at hvm
  rw [List.mem_append] at hvm
  rcases hvm with hvm | hvm
  · rw [List.mem_flatMap] at hvm
    obtain ⟨p, hpA, hbody⟩ := hvm
    obtain ⟨tk, u⟩ := p
    have htok : tk = lookupTokens view u.UploadID := hCA (tk, u) hpA
    simp only [] at hbody
    rcases hlook : alookup D tk with _ | q
    · simp only [hlook, List.mem_singleton] at hbody
      subst hbody
      have hteq : tk = t := by rw [htok]; exact ht
      subst hteq
      exact Or.inl ⟨u, alookup_eq_some_of_mem hNA hpA, Or.inl rfl⟩
    · have hqD : (tk, q) ∈ D := mem_of_alookup_eq_some hlook
      have htokD : tk = lookupTokens view q.UploadID := hCD (tk, q) hqD
      simp only [hlook] at hbody
      by_cases hwin : q.Flags + dD < u.Flags + dA ∨
          (q.Flags + dD = u.Flags + dA ∧ q.UploadID < u.UploadID)
      · rw [if_pos hwin] at hbody
        rcases List.mem_cons.mp hbody with rfl | hbody2
        · have hteq : tk = t := by rw [htokD]; exact ht
          subst hteq
          exact Or.inr ⟨q, hlook, rfl⟩
        · rw [List.mem_singleton] at hbody2
          subst hbody2
          have hteq : tk = t := by rw [htok]; exact ht
          subst hteq
          exact Or.inl ⟨u, alookup_eq_some_of_mem hNA hpA, Or.inr rfl⟩
      · rw [if_neg hwin, List.mem_singleton] at hbody
        subst hbody
        have hteq : tk = t := by rw [htok]; exact ht
        subst hteq
        exact Or.inl ⟨u, alookup_eq_some_of_mem hNA hpA, Or.inl rfl⟩
  · rw [List.mem_flatMap] at hvm
    obtain ⟨p, hpD, hbody⟩ := hvm
    obtain ⟨tk, u⟩ := p
    have htok : tk = lookupTokens view u.UploadID := hCD (tk, u) hpD
    rcases hlook : alookup A tk with _ | q
    · simp only [hlook, List.mem_singleton] at hbody
      subst hbody
      have hteq : tk = t := by rw [htok]; exact ht
      subst hteq
      exact Or.inr ⟨u, alookup_eq_some_of_mem hND hpD, rfl⟩
    · simp only [hlook] at hbody
      simp at hbody

theorem combineSpec_nearest (view : CommitGraphView) (t : String) (A D : TokenMapT) (dA dD : Nat)
    (hCA : ∀ p ∈ A, p.1 = lookupTokens view p.2.UploadID)
    (hCD : ∀ p ∈ D, p.1 = lookupTokens view p.2.UploadID)
    (hFA : ∀ p ∈ A, p.2.Flags + dA < 2 ^ 29)
    (hFD : ∀ p ∈ D, p.2.Flags + dD < 2 ^ 29)
    (hNA : (A.map Prod.fst).Nodup) (hND : (D.map Prod.fst).Nodup) :
    ∀ w ∈ (combineSpec A D dA dD).filter
        (fun u => decide (lookupTokens view u.UploadID = t) && !(overwrittenOf u)),
      ∀ v ∈ combineSpec A D dA dD, lookupTokens view v.UploadID = t →
        packedDistance w < packedDistance v ∨
        (packedDistance w = packedDistance v ∧ w.UploadID ≤ v.UploadID) := by
  intro w hw v hvm hvt
  rw [combineSpec_filter view t A D dA dD hCA hCD hFA hFD hNA hND] at hw
  have hvchar := combineSpec_mem_token view hCA hCD hNA hND hvm hvt
  rcases hA : alookup A t with _ | uA
  · rcases hD : alookup D t with _ | uD
    · simp only [hA, hD] at hw
      simp at hw
    · have hbD : uD.Flags + dD < 2 ^ 29 := hFD (t, uD) (mem_of_alookup_eq_some hD)
      simp only [hA, hD, List.mem_singleton] at hw
      subst hw
      rcases hvchar with ⟨uA', hA', -⟩ | ⟨uD', hD', hveq⟩
      · rw [hA] at hA'; cases hA'
      · rw [hD] at hD'
        injection hD' with he
        subst he
        subst hveq
        exact Or.inr ⟨rfl, le_refl _⟩
  · have hbA : uA.Flags + dA < 2 ^ 29 := hFA (t, uA) (mem_of_alookup_eq_some hA)
    rcases hD : alookup D t with _ | uD
    · simp only [hA, hD, List.mem_singleton] at hw
      subst hw
      rcases hvchar with ⟨uA', hA', hveq⟩ | ⟨uD', hD', -⟩
      · rw [hA] at hA'
        injection hA' with he
        subst he
        rcases hveq with hveq | hveq <;> subst hveq
        · exact Or.inr ⟨rfl, le_refl _⟩
        · refine Or.inr ⟨?_, le_refl _⟩
          rw [packedDistance_av hbA, packedDistance_av_ov hbA]
      · rw [hD] at hD'; cases hD'
    · have hbD : uD.Flags + dD < 2 ^ 29 := hFD (t, uD) (mem_of_alookup_eq_some hD)
      simp only [hA, hD] at hw
      by_cases hwin : uD.Flags + dD < uA.Flags + dA ∨
          (uD.Flags + dD = uA.Flags + dA ∧ uD.UploadID < uA.UploadID)
      · rw [if_pos hwin, List.mem_singleton] at hw
        subst hw
        rcases hvchar with ⟨uA', hA', hveq⟩ | ⟨uD', hD', hveq⟩
        · rw [hA] at hA'
          injection hA' with he
          subst he
          have hgoal : uD.Flags + dD < uA.Flags + dA ∨
              (uD.Flags + dD = uA.Flags + dA ∧ uD.UploadID ≤ uA.UploadID) := by
            rcases hwin with hwin | hwin
            · exact Or.inl hwin
            · exact Or.inr ⟨hwin.1, Nat.le_of_lt hwin.2⟩
          rcases hveq with hveq | hveq <;> subst hveq
          · rw [packedDistance_clean hbD, packedDistance_av hbA]
            simp only []
            exact hgoal
          · rw [packedDistance_clean hbD, packedDistance_av_ov hbA]
            simp only []
            exact hgoal
        · rw [hD] at hD'
          injection hD' with he
          subst he
          subst hveq
          exact Or.inr ⟨rfl, le_refl _⟩
      · rw [if_neg hwin, List.mem_singleton] at hw
        subst hw
        rcases hvchar with ⟨uA', hA', hveq⟩ | ⟨uD', hD', hveq⟩
        · rw [hA] at hA'
          injection hA' with he
          subst he
          rcases hveq with hveq | hveq <;> subst hveq
          · exact Or.inr ⟨rfl, le_refl _⟩
          · refine Or.inr ⟨?_, le_refl _⟩
            rw [packedDistance_av hbA, packedDistance_av_ov hbA]
        · rw [hD] at hD'
          injection hD' with he
          subst he
          subst hveq
          rw [packedDistance_av hbA, packedDistance_clean hbD]
          simp only []
          omega

/-- C4: on any valid input whose commit count keeps computed distances inside
the 29-bit distance field, every visibility list the stream emits contains, for
any token, at most one upload whose `OVERWRITTEN` marker is clear, and that
upload has the smallest packed distance among all uploads with that token in
the list, ties broken toward the smaller upload id. -/
theorem nearest_wins {graph : GraphT} {order : List String} {view : CommitGraphView}
    (hv : ValidInput graph order view) (hb : 2 * order.length < 2 ^ 29)
    {g : GraphData} (hg : NewGraph graph order view = some g)
    {envs : List Envelope} (hs : stream g = some envs)
    {c : String} {l : List UploadMeta} (hmem : Envelope.uploads ⟨c, l⟩ ∈ envs) (t : String) :
    (l.filter fun u => decide (lookupTokens view u.UploadID = t)
        && !(overwrittenOf u)).length ≤ 1 ∧
    ∀ u ∈ l.filter fun u => decide (lookupTokens view u.UploadID = t) && !(overwrittenOf u),
      ∀ v ∈ l, lookupTokens view v.UploadID = t →
        packedDistance u < packedDistance v ∨
        (packedDistance u = packedDistance v ∧ u.UploadID ≤ v.UploadID) := by
  obtain ⟨hcom, hfuel, hgg, hgr⟩ := NewGraph_inv hg
  unfold stream at hs
  obtain ⟨c2, hc2, hstep⟩ := mem_streamList hs hmem
  obtain ⟨ac, ad, f1, dc, dd, f2, ht1, ht2, hnf, hcase⟩ := streamStep_some_inv hstep
  rcases hcase with ⟨-, henv⟩ | ⟨-, henv⟩
  swap
  · exact Envelope.noConfusion henv
  simp only [Envelope.uploads.injEq, VisibilityRelationship.mk.injEq] at henv
  obtain ⟨-, hl⟩ := henv
  subst hl
  have hlen32 : order.length < 2 ^ 32 := by
    have : (2 : Nat) ^ 29 < 2 ^ 32 := by norm_num
    omega
  obtain ⟨hOKA, hOKD⟩ := NewGraph_seedmaps_OK hv hlen32 hg
  have hAOK := seedD_OK (b := fun x => order.indexOf x) hOKA ac
  have hDOK := seedD_OK (b := fun x => order.length - order.indexOf x) hOKD dc
  rw [hgg] at ht1
  rw [hgr] at ht2
  unfold traverseForCommit at ht1 ht2
  have hadle : ad ≤ order.length := by
    cases f1
    · obtain ⟨-, h0⟩ := traverseForCommitAux_false_shape ht1
      omega
    · have hd1 := traverseForCommitAux_dist_le (μ := fun x => order.indexOf x)
        (fwd_dec hv) ht1
      have hd2 := List.indexOf_le_length (a := c2) (l := order)
      simp only [] at hd1
      omega
  have hddle : dd ≤ order.length := by
    cases f2
    · obtain ⟨-, h0⟩ := traverseForCommitAux_false_shape ht2
      omega
    · have hd1 := traverseForCommitAux_dist_le (μ := fun x => order.length - order.indexOf x)
        (bwd_dec hv) ht2
      simp only [] at hd1
      omega
  have hFA : ∀ p ∈ lookupSeedD g.ancestorUploads ac, p.2.Flags + ad < 2 ^ 29 := by
    intro p hp
    have h1 := (hAOK.2 p hp).2
    have h2 := List.indexOf_le_length (a := ac) (l := order)
    omega
  have hFD : ∀ p ∈ lookupSeedD g.descendantUploads dc, p.2.Flags + dd < 2 ^ 29 := by
    intro p hp
    have h1 := (hDOK.2 p hp).2
    omega
  have hcomb : combineVisibleUploadsForCommit (lookupSeedD g.ancestorUploads ac)
      (lookupSeedD g.descendantUploads dc) ad dd
      = combineSpec (lookupSeedD g.ancestorUploads ac)
        (lookupSeedD g.descendantUploads dc) ad dd :=
    combine_eq_spec_helper _ _ _ _ hFA hFD
  rw [hcomb]
  have hCA : ∀ p ∈ lookupSeedD g.ancestorUploads ac,
      p.1 = lookupTokens view p.2.UploadID := fun p hp => (hAOK.2 p hp).1
  have hCD : ∀ p ∈ lookupSeedD g.descendantUploads dc,
      p.1 = lookupTokens view p.2.UploadID := fun p hp => (hDOK.2 p hp).1
  constructor
  · rw [combineSpec_filter view t _ _ ad dd hCA hCD hFA hFD hAOK.1 hDOK.1]
    rcases alookup (lookupSeedD g.ancestorUploads ac) t with _ | uA <;>
      rcases alookup (lookupSeedD g.descendantUploads dc) t with _ | uD <;>
        simp only [] <;>
        first
          | (split_ifs <;> simp)
          | simp
  · exact combineSpec_nearest view t _ _ ad dd hCA hCD hFA hFD hAOK.1 hDOK.1

/-- Witness for `nearest_wins` at the `cgB` input, for the emission at commit
`b` and the token `t1`. -/
theorem nearest_wins_witness :
    ValidInput cgB ordB viewB ∧ 2 * ordB.length < 2 ^ 29 ∧
    NewGraph cgB ordB viewB = some gB ∧
    stream gB = some [Envelope.uploads ⟨"b", [⟨50, 1073741825⟩]⟩,
      Envelope.uploads ⟨"z", [⟨50, 1073741824⟩]⟩] ∧
    Envelope.uploads ⟨"b", [⟨50, 1073741825⟩]⟩
      ∈ [Envelope.uploads ⟨"b", [⟨50, 1073741825⟩]⟩,
         Envelope.uploads ⟨"z", [⟨50, 1073741824⟩]⟩] ∧
    ((([⟨50, 1073741825⟩] : List UploadMeta).filter fun u =>
        decide (lookupTokens viewB u.UploadID = "t1") && !(overwrittenOf u)).length ≤ 1 ∧
      ∀ u ∈ ([⟨50, 1073741825⟩] : List UploadMeta).filter fun u =>
          decide (lookupTokens viewB u.UploadID = "t1") && !(overwrittenOf u),
        ∀ v ∈ ([⟨50, 1073741825⟩] : List UploadMeta), lookupTokens viewB v.UploadID = "t1" →
          packedDistance u < packedDistance v ∨
          (packedDistance u = packedDistance v ∧ u.UploadID ≤ v.UploadID)) :=
  ⟨⟨by decide, by decide, by decide, by decide, by decide, by decide, by decide, by decide,
      by decide, by decide⟩, by decide, by rfl, by rfl, List.mem_cons_self _ _,
    @nearest_wins cgB ordB viewB
      ⟨by decide, by decide, by decide, by decide, by decide, by decide, by decide, by decide,
        by decide, by decide⟩
      (by decide) gB (by rfl)
      [Envelope.uploads ⟨"b", [⟨50, 1073741825⟩]⟩, Envelope.uploads ⟨"z", [⟨50, 1073741824⟩]⟩]
      (by rfl) "b" [⟨50, 1073741825⟩] (List.mem_cons_self _ _) "t1"⟩

end CommitGraph
